import Mathlib

/-!
Verification of the famtreejs graph validator and layout engine.

The development shallowly embeds the TypeScript sources:
  - src/utils/validation.ts  (validateFamilyTreeData, buildParentMap,
    detectCircularReferences)
  - src/layout/engine.ts     (calculateLayout, findRootPeople,
    layoutFamilyUnit, calculateSubtreeWidth, transformPoint, transformLayout)

Coordinates are rationals, JavaScript Map and Set become association lists
and membership lists, thrown ValidationError becomes Except String, and the
recursive layout passes take explicit fuel together with proofs that the
chosen fuel is always sufficient.
-/

namespace FamTree

/-- A person in the input data.  The user payload is opaque to the engine
and irrelevant to every property proved here, so it is omitted. -/
structure PersonNode where
  id : String
deriving Repr, DecidableEq

/-- A partnership.  The TypeScript type declares partnerIds as a pair whose
first slot is a string, but the validator explicitly tests both slots for
null at runtime, so both are modelled as Option. -/
structure Partnership where
  id : String
  partnerIds : Option String × Option String
  childIds : List String
deriving Repr, DecidableEq

/-- The full input graph. -/
structure FamilyTreeData where
  people : List PersonNode
  partnerships : List Partnership
  rootPersonId : Option String := none
deriving Repr, DecidableEq

/-! ## Association lists modelling JavaScript Map -/

/-- Lookup of the first binding for a key, as JavaScript Map.get. -/
def alGet {κ α : Type} [DecidableEq κ] (k : κ) : List (κ × α) → Option α
  | [] => none
  | (k1, v) :: rest => if k1 = k then some v else alGet k rest

/-- Insert or replace a binding, as JavaScript Map.set: the first existing
binding for the key is replaced in place, otherwise the binding is appended. -/
def alSet {κ α : Type} [DecidableEq κ] (k : κ) (v : α) : List (κ × α) → List (κ × α)
  | [] => [(k, v)]
  | (k1, v1) :: rest => if k1 = k then (k, v) :: rest else (k1, v1) :: alSet k v rest

/-- Membership in a JavaScript Set modelled as a list: Set.add appends when
the element is not yet present. -/
def setAdd {κ : Type} [DecidableEq κ] (s : List κ) (x : κ) : List κ :=
  if x ∈ s then s else s ++ [x]

/-! ## Validator (src/utils/validation.ts) -/

/-- The blank-string test: id.trim() equals the empty string exactly when
every character of the id is whitespace.  The trim call is modelled this
way because the library trim function is defined by well-founded recursion
and does not reduce inside the kernel. -/
def isBlank (s : String) : Bool :=
  s.data.all Char.isWhitespace

/-- First loop of validateFamilyTreeData: reject empty or duplicate person
ids and collect the id set.  The source condition is
(not person.id) or (person.id.trim() equals the empty string). -/
def collectPersonIds : List PersonNode → List String → Except String (List String)
  | [], acc => .ok acc
  | p :: rest, acc =>
    if p.id = "" ∨ isBlank p.id then .error "Person has empty ID"
    else if p.id ∈ acc then .error ("Duplicate person ID: " ++ p.id)
    else collectPersonIds rest (acc ++ [p.id])

/-- The per-partnership body of the second loop of validateFamilyTreeData,
in source order: empty id, duplicate id, both partner slots null, first
partner reference, second partner reference, child references. -/
def partnershipCheck (personIds pids : List String) (pt : Partnership) : Except String Unit :=
  if pt.id = "" ∨ isBlank pt.id then .error "Partnership has empty ID"
  else if pt.id ∈ pids then .error ("Duplicate partnership ID: " ++ pt.id)
  else if pt.partnerIds.1 = none ∧ pt.partnerIds.2 = none then
    .error ("Partnership " ++ pt.id ++ " must have at least one partner")
  else match checkPartner personIds pt.id pt.partnerIds.1 with
    | .error e => .error e
    | .ok () => match checkPartner personIds pt.id pt.partnerIds.2 with
      | .error e => .error e
      | .ok () => checkChildren personIds pt.id pt.childIds
where
  /-- Partner reference check: a non-null partner must resolve. -/
  checkPartner (personIds : List String) (ptId : String) : Option String → Except String Unit
    | none => .ok ()
    | some partner =>
      if partner ∈ personIds then .ok ()
      else .error ("Partnership " ++ ptId ++ " references non-existent person: " ++ partner)
  /-- Child reference loop: each child id must resolve. -/
  checkChildren (personIds : List String) (ptId : String) : List String → Except String Unit
    | [] => .ok ()
    | c :: rest =>
      if c ∈ personIds then checkChildren personIds ptId rest
      else .error ("Partnership " ++ ptId ++ " references non-existent child: " ++ c)

/-- Second loop of validateFamilyTreeData over partnerships, accumulating
the partnership id set.  The source adds the id to the set right after the
duplicate check; adding it after the remaining checks of the same
partnership is equivalent because those checks do not read the set. -/
def validatePartnerships (personIds : List String) :
    List Partnership → List String → Except String (List String)
  | [], pids => .ok pids
  | pt :: rest, pids =>
    match partnershipCheck personIds pids pt with
    | .error e => .error e
    | .ok () => validatePartnerships personIds rest (pids ++ [pt.id])

/-- One step of buildParentMap: record the parents of one child.  Matches
the source, which silently skips children absent from the map. -/
def addParents (c : String) (parents : List String) (m : List (String × List String)) :
    List (String × List String) :=
  match alGet c m with
  | none => m
  | some s => alSet c (parents.foldl setAdd s) m

/-- The non-null partner ids of a partnership, first slot first, matching
the parents array built in buildParentMap. -/
def partnersList (pt : Partnership) : List String :=
  (pt.partnerIds.1.toList) ++ (pt.partnerIds.2.toList)

/-- buildParentMap from the source: initialize every person with an empty
parent set, then for every partnership add its partners as parents of each
of its children. -/
def buildParentMap (data : FamilyTreeData) : List (String × List String) :=
  let init := data.people.foldl (fun m p => alSet p.id [] m) []
  data.partnerships.foldl
    (fun m pt => pt.childIds.foldl (fun m2 c => addParents c (partnersList pt) m2) m)
    init

/-- The parent list the breadth-first search reads for an id: the map entry
when present, the empty list otherwise (the source pushes nothing when the
lookup misses). -/
def parentsIn (pm : List (String × List String)) (i : String) : List String :=
  (alGet i pm).getD []

/-- The breadth-first ancestor search of detectCircularReferences for one
person, with explicit fuel.  Each step pops the queue head, reports a cycle
when it equals the target, and otherwise expands its parents unless it was
already visited. -/
def bfsCheck (pm : List (String × List String)) (target : String) :
    Nat → List String → List String → Option Bool
  | 0, _, _ => none
  | _ + 1, [], _ => some false
  | fuel + 1, a :: queue, visited =>
    if a = target then some true
    else if a ∈ visited then bfsCheck pm target fuel queue visited
    else bfsCheck pm target fuel (queue ++ parentsIn pm a) (visited ++ [a])

/-- Fuel bound for the breadth-first search: the queue length plus, for
every map key not yet visited, the length of its parent list plus one. -/
def bfsPhi (pm : List (String × List String)) (queue visited : List String) : Nat :=
  queue.length +
    (((pm.map Prod.fst).filter (fun i => i ∉ visited)).map
      (fun i => (parentsIn pm i).length + 1)).sum

/-- The ancestor scan for a single person: seed the queue with the parents
of the person and search with provably sufficient fuel. -/
def personCycleCheck (pm : List (String × List String)) (pid : String) : Option Bool :=
  let q := parentsIn pm pid
  bfsCheck pm pid (bfsPhi pm q [] + 1) q []

/-- The outer loop of detectCircularReferences over all people.  The fuel
exhaustion case of the search never occurs (proved below); it is mapped to
continuing the loop. -/
def detectLoop (pm : List (String × List String)) : List PersonNode → Except String Unit
  | [] => .ok ()
  | p :: rest =>
    match personCycleCheck pm p.id with
    | some true =>
      .error ("Circular reference detected: " ++ p.id ++ " is their own ancestor")
    | _ => detectLoop pm rest

/-- detectCircularReferences from the source. -/
def detectCircularReferences (data : FamilyTreeData) : Except String Unit :=
  detectLoop (buildParentMap data) data.people

/-- validateFamilyTreeData from the source: person pass, partnership pass,
root reference check, cycle check, failing on the first violation. -/
def validateFamilyTreeData (data : FamilyTreeData) : Except String Unit :=
  match collectPersonIds data.people [] with
  | .error e => .error e
  | .ok personIds =>
    match validatePartnerships personIds data.partnerships [] with
    | .error e => .error e
    | .ok _ =>
      match data.rootPersonId with
      | some r =>
        if r ∈ personIds then detectCircularReferences data
        else .error ("rootPersonId references non-existent person: " ++ r)
      | none => detectCircularReferences data

/-! ## Layout engine data types (src/layout/engine.ts) -/

/-- A 2-D point with exact rational coordinates. -/
structure Point where
  x : ℚ
  y : ℚ
deriving Repr, DecidableEq

/-- A positioned node in the layout. -/
structure LayoutNode where
  id : String
  x : ℚ
  y : ℚ
deriving Repr, DecidableEq

/-- Connection between two partners.  partner1Id is Option because the
engine copies the raw first slot, which can be null at runtime. -/
structure PartnershipConnection where
  partnershipId : String
  partner1Id : Option String
  partner2Id : Option String
  midpoint : Point
deriving Repr, DecidableEq

/-- Connection from a partnership to a child. -/
structure ChildConnection where
  partnershipId : String
  childId : String
  dropPoint : Point
  childPoint : Point
deriving Repr, DecidableEq

/-- The four layout directions. -/
inductive Orientation where
  | topDown
  | bottomUp
  | leftRight
  | rightLeft
deriving Repr, DecidableEq

/-- Complete layout result. -/
structure LayoutResult where
  nodes : List LayoutNode
  partnershipConnections : List PartnershipConnection
  childConnections : List ChildConnection
  orientation : Orientation
deriving Repr, DecidableEq

/-- Spacing configuration as supplied by the caller, every field optional. -/
structure SpacingConfig where
  generation : Option ℚ := none
  siblings : Option ℚ := none
  partners : Option ℚ := none
deriving Repr, DecidableEq

/-- Fully resolved spacing. -/
structure Spacing where
  generation : ℚ
  siblings : ℚ
  partners : ℚ
deriving Repr, DecidableEq

/-- DEFAULT_SPACING of the engine source. -/
def defaultSpacing : Spacing := ⟨100, 50, 30⟩

/-- The spread of options.spacing over DEFAULT_SPACING. -/
def mergeSpacing (c : SpacingConfig) : Spacing :=
  ⟨c.generation.getD defaultSpacing.generation,
   c.siblings.getD defaultSpacing.siblings,
   c.partners.getD defaultSpacing.partners⟩

/-- Options for layout calculation. -/
structure LayoutOptions where
  spacing : SpacingConfig := {}
  orientation : Option Orientation := none
  rootPersonId : Option String := none
deriving Repr, DecidableEq

/-! ## Orientation transform -/

/-- transformPoint from the source: the four fixed coordinate maps. -/
def transformPoint (p : Point) : Orientation → Point
  | .topDown => p
  | .bottomUp => ⟨p.x, -p.y⟩
  | .leftRight => ⟨p.y, p.x⟩
  | .rightLeft => ⟨-p.y, p.x⟩

/-- transformLayout from the source, including the top-down shortcut that
returns the canonical result unchanged. -/
def transformLayout (nodes : List LayoutNode) (pcs : List PartnershipConnection)
    (ccs : List ChildConnection) (o : Orientation) : LayoutResult :=
  if o = .topDown then ⟨nodes, pcs, ccs, o⟩
  else
    ⟨nodes.map (fun n =>
        let q := transformPoint ⟨n.x, n.y⟩ o
        ⟨n.id, q.x, q.y⟩),
     pcs.map (fun c => { c with midpoint := transformPoint c.midpoint o }),
     ccs.map (fun c => { c with dropPoint := transformPoint c.dropPoint o,
                                childPoint := transformPoint c.childPoint o }),
     o⟩

/-! ## Root finding and helper maps -/

/-- buildChildToPartnershipMap from the source: child id to the partnership
listing it (later partnerships overwrite earlier ones, as Map.set does). -/
def buildChildToPartnershipMap (data : FamilyTreeData) : List (String × Partnership) :=
  data.partnerships.foldl (fun m pt => pt.childIds.foldl (fun m2 c => alSet c pt m2) m) []

/-- JavaScript truthiness of a nullable string: null and the empty string
are falsy. -/
def truthy : Option String → Bool
  | none => false
  | some s => s ≠ ""

/-- The inner loop of findRootPeople marking the partners of a newly found
root so they are not added as separate roots. -/
def markPartners (data : FamilyTreeData) (pid : String) (acc : List String) : List String :=
  data.partnerships.foldl
    (fun s pt =>
      if pt.partnerIds.1 = some pid ∧ truthy pt.partnerIds.2 then
        setAdd s (pt.partnerIds.2.getD "")
      else if pt.partnerIds.2 = some pid ∧ truthy pt.partnerIds.1 then
        setAdd s (pt.partnerIds.1.getD "")
      else s)
    acc

/-- The main loop of findRootPeople. -/
def findRootLoop (data : FamilyTreeData) (childMap : List (String × Partnership)) :
    List PersonNode → List String → List String → List String
  | [], roots, _ => roots
  | p :: rest, roots, partnersOfRoots =>
    if (alGet p.id childMap).isNone ∧ p.id ∉ partnersOfRoots then
      findRootLoop data childMap rest (roots ++ [p.id]) (markPartners data p.id partnersOfRoots)
    else
      findRootLoop data childMap rest roots partnersOfRoots

/-- findRootPeople from the source, including the first-person fallback for
the case where no parentless person exists. -/
def findRootPeople (data : FamilyTreeData) (childMap : List (String × Partnership)) :
    List String :=
  let roots := findRootLoop data childMap data.people [] []
  if roots = [] then
    match data.people with
    | [] => []
    | p :: _ => [p.id]
  else roots

/-- getPartnershipsForPerson from the source. -/
def getPartnershipsForPerson (personId : String) (data : FamilyTreeData) : List Partnership :=
  data.partnerships.filter
    (fun p => p.partnerIds.1 = some personId ∨ p.partnerIds.2 = some personId)

/-! ## Width estimator (calculateSubtreeWidth) -/

/-- All child ids appearing in any partnership; every recursive call of the
width estimator targets an element of this list. -/
def allChildIds (data : FamilyTreeData) : List String :=
  data.partnerships.flatMap (fun pt => pt.childIds)

/-- The loop over the children of one partnership inside
calculateSubtreeWidth, threading the shared processed-partnership list and
the local visited set through the recursive estimate of each child. -/
def swChildrenLoop
    (go : String → List String → List (Option String) →
      Option (ℚ × List String × List (Option String))) :
    List String → ℚ → List String → List (Option String) →
      Option (ℚ × List String × List (Option String))
  | [], acc, pp, vis => some (acc, pp, vis)
  | c :: rest, acc, pp, vis =>
    match go c pp vis with
    | none => none
    | some (w, pp1, vis1) => swChildrenLoop go rest (acc + w) pp1 vis1

/-- The loop over the not-yet-committed partnerships of one person inside
calculateSubtreeWidth, accumulating the maximum of partner width and
children width per partnership. -/
def swPartsLoop
    (go : String → List String → List (Option String) →
      Option (ℚ × List String × List (Option String)))
    (spacing : Spacing) :
    List Partnership → ℚ → List String → List (Option String) →
      Option (ℚ × List String × List (Option String))
  | [], acc, pp, vis => some (acc, pp, vis)
  | pt :: rest, acc, pp, vis =>
    match swChildrenLoop go pt.childIds 0 pp vis with
    | none => none
    | some (cw, pp1, vis1) =>
      let childrenWidth :=
        if pt.childIds.length > 1 then cw + ((pt.childIds.length : ℚ) - 1) * spacing.siblings
        else cw
      let partnerWidth : ℚ := if pt.partnerIds.2 ≠ none then spacing.partners else 0
      swPartsLoop go spacing rest (acc + max partnerWidth childrenWidth) pp1 vis1

/-- calculateSubtreeWidth from the source, with explicit fuel.  The result
carries the shared processed-partnership list (passed by reference in the
source and so observable if it were mutated) and the per-call visited set
back to the caller. -/
def calcSubtreeWidthF :
    Nat → String → FamilyTreeData → Spacing → List String → List (Option String) →
      Option (ℚ × List String × List (Option String))
  | 0, _, _, _, _, _ => none
  | fuel + 1, personId, data, spacing, pp, visited =>
    if some personId ∈ visited then some (0, pp, visited)
    else
      let visited1 := setAdd visited (some personId)
      let parts := (getPartnershipsForPerson personId data).filter (fun p => p.id ∉ pp)
      if parts.isEmpty then some (0, pp, visited1)
      else
        match swPartsLoop (fun c pp2 v2 => calcSubtreeWidthF fuel c data spacing pp2 v2)
            spacing parts 0 pp visited1 with
        | none => none
        | some (total, pp1, vis1) =>
          let total1 :=
            if parts.length > 1 then total + ((parts.length : ℚ) - 1) * spacing.siblings
            else total
          some (total1, pp1, vis1)

/-- Fuel that is always sufficient for the width estimator (proved below). -/
def widthFuel (data : FamilyTreeData) : Nat :=
  (allChildIds data).length + 1

/-! ## Position assigner (layoutFamilyUnit) -/

/-- The mutable layout session threaded through the recursive passes:
node positions and connections plus the processed-people and
processed-partnership sets. -/
structure LayoutState where
  nodePositions : List (Option String × Point)
  partnershipConnections : List PartnershipConnection
  childConnections : List ChildConnection
  processedPartnerships : List String
  processedPeople : List (Option String)
deriving Repr, DecidableEq

/-- The empty session at the start of calculateLayout. -/
def initState : LayoutState := ⟨[], [], [], [], []⟩

/-- First inner loop of a partnership unit: estimate the subtree width of
each child with a fresh copy of the processed-people set, collecting the
per-child widths, their sum, and the threaded processed-partnership list. -/
def childWidthsLoop (data : FamilyTreeData) (spacing : Spacing)
    (processedPeople : List (Option String)) :
    List String → List ℚ → ℚ → List String → Option (List ℚ × ℚ × List String)
  | [], ws, total, pp => some (ws, total, pp)
  | c :: rest, ws, total, pp =>
    match calcSubtreeWidthF (widthFuel data) c data spacing pp processedPeople with
    | none => none
    | some (w, pp1, _) => childWidthsLoop data spacing processedPeople rest (ws ++ [w]) (total + w) pp1

/-- Second inner loop of a partnership unit: record a child connection for
each child and recurse into the position assigner, advancing the x cursor
by the estimated child width plus sibling spacing. -/
def placeChildrenLoop
    (go : String → ℚ → ℚ → LayoutState → Option (ℚ × LayoutState))
    (ptId : String) (midpointX y childY : ℚ) (spacing : Spacing) :
    List (String × ℚ) → ℚ → LayoutState → Option LayoutState
  | [], _, st => some st
  | (c, w) :: rest, childX, st =>
    let childCenterX := childX + w / 2
    let st1 := { st with childConnections := st.childConnections ++
      [⟨ptId, c, ⟨midpointX, y + spacing.generation / 2⟩, ⟨childCenterX, childY⟩⟩] }
    match go c childX childY st1 with
    | none => none
    | some (_, st2) => placeChildrenLoop go ptId midpointX y childY spacing rest (childX + w + spacing.siblings) st2

/-- The partner-placement part of one partnership unit: each partner
receives its computed slot unless a position is already recorded for it,
and the partnership connection is appended. -/
def placePartners (pt : Partnership) (p1X p2X y midpointX : ℚ) (st : LayoutState) :
    LayoutState :=
  let st3 :=
    if (alGet pt.partnerIds.1 st.nodePositions).isNone then
      { st with nodePositions := alSet pt.partnerIds.1 ⟨p1X, y⟩ st.nodePositions,
                processedPeople := setAdd st.processedPeople pt.partnerIds.1 }
    else st
  let st4 :=
    if pt.partnerIds.2 ≠ none ∧ (alGet pt.partnerIds.2 st3.nodePositions).isNone then
      { st3 with nodePositions := alSet pt.partnerIds.2 ⟨p2X, y⟩ st3.nodePositions,
                 processedPeople := setAdd st3.processedPeople pt.partnerIds.2 }
    else st3
  { st4 with partnershipConnections := st4.partnershipConnections ++
      [⟨pt.id, pt.partnerIds.1, pt.partnerIds.2, ⟨midpointX, y⟩⟩] }

/-- The arithmetic of one partnership unit: the children width including
sibling gaps, partner width, unit width, the two partner slots, the
midpoint, and the left edge of the children block. -/
structure UnitGeometry where
  unitWidth : ℚ
  p1X : ℚ
  p2X : ℚ
  midpointX : ℚ
  childX0 : ℚ
  childrenTotalWidth : ℚ
deriving Repr, DecidableEq

/-- The unit geometry computed by layoutFamilyUnit for one partnership from
the cursor position and the summed children width. -/
def punitGeometry (spacing : Spacing) (pt : Partnership) (currentX cw : ℚ) : UnitGeometry :=
  let childrenTotalWidth :=
    if pt.childIds.length > 1 then cw + ((pt.childIds.length : ℚ) - 1) * spacing.siblings
    else cw
  let partnerWidth : ℚ := if pt.partnerIds.2 ≠ none then spacing.partners else 0
  let unitWidth := max partnerWidth childrenTotalWidth
  let unitCenter := currentX + unitWidth / 2
  let p1X := unitCenter - partnerWidth / 2
  let p2X := unitCenter + partnerWidth / 2
  let midpointX := if pt.partnerIds.2 ≠ none then (p1X + p2X) / 2 else p1X
  ⟨unitWidth, p1X, p2X, midpointX,
   currentX + (unitWidth - childrenTotalWidth) / 2, childrenTotalWidth⟩

/-- Processing of one not-yet-processed partnership inside
layoutFamilyUnit: mark it processed, estimate the children widths, place
the partners centred over the combined children width, record the
partnership connection, then place the children one generation down.
Returns the unit width and the updated session. -/
def punitStep
    (go : String → ℚ → ℚ → LayoutState → Option (ℚ × LayoutState))
    (data : FamilyTreeData) (spacing : Spacing) (y : ℚ) (pt : Partnership)
    (currentX : ℚ) (st : LayoutState) : Option (ℚ × LayoutState) :=
  let st1 := { st with processedPartnerships := setAdd st.processedPartnerships pt.id }
  match childWidthsLoop data spacing st1.processedPeople pt.childIds [] 0
      st1.processedPartnerships with
  | none => none
  | some (childWidths, cw, pp1) =>
    let st2 := { st1 with processedPartnerships := pp1 }
    let g := punitGeometry spacing pt currentX cw
    let st5 := placePartners pt g.p1X g.p2X y g.midpointX st2
    let afterChildren :=
      if pt.childIds.length > 0 then
        placeChildrenLoop go pt.id g.midpointX y (y + spacing.generation) spacing
          (pt.childIds.zip childWidths) g.childX0 st5
      else some st5
    match afterChildren with
    | none => none
    | some st6 => some (g.unitWidth, st6)

/-- The loop over the partnerships of one person inside layoutFamilyUnit,
threading the x cursor, the running total width and the session state. -/
def punitLoop
    (go : String → ℚ → ℚ → LayoutState → Option (ℚ × LayoutState))
    (data : FamilyTreeData) (spacing : Spacing) (startX y : ℚ) :
    List Partnership → ℚ → ℚ → LayoutState → Option (ℚ × ℚ × LayoutState)
  | [], currentX, totalWidth, st => some (currentX, totalWidth, st)
  | pt :: rest, currentX, totalWidth, st =>
    if pt.id ∈ st.processedPartnerships then
      punitLoop go data spacing startX y rest currentX totalWidth st
    else
      match punitStep go data spacing y pt currentX st with
      | none => none
      | some (unitWidth, st6) =>
        let currentX1 := currentX + unitWidth + spacing.siblings
        punitLoop go data spacing startX y rest currentX1
          (currentX1 - startX - spacing.siblings) st6

/-- layoutFamilyUnit from the source, with explicit fuel: place one person
and their whole reachable family unit, returning the consumed width and
the updated session. -/
def layoutFamilyUnitF :
    Nat → String → ℚ → ℚ → FamilyTreeData → Spacing → LayoutState →
      Option (ℚ × LayoutState)
  | 0, _, _, _, _, _, _ => none
  | fuel + 1, personId, startX, y, data, spacing, st =>
    if some personId ∈ st.processedPeople then some (0, st)
    else
      let partnerships := getPartnershipsForPerson personId data
      if partnerships.isEmpty then
        some (0, { st with
          nodePositions := alSet (some personId) ⟨startX, y⟩ st.nodePositions,
          processedPeople := setAdd st.processedPeople (some personId) })
      else
        match punitLoop (fun c cx cy s => layoutFamilyUnitF fuel c cx cy data spacing s)
            data spacing startX y partnerships startX 0 st with
        | none => none
        | some (_, totalWidth, st1) => some (max 0 totalWidth, st1)

/-- Fuel that is always sufficient for the position assigner (proved
below). -/
def layoutFuel (data : FamilyTreeData) : Nat :=
  data.partnerships.length + 1

/-- The top-level driver loop of calculateLayout over the root people,
advancing a running x cursor by each consumed width plus sibling spacing
and skipping roots that were already placed. -/
def rootsLoop (data : FamilyTreeData) (spacing : Spacing) :
    List String → ℚ → LayoutState → Option LayoutState
  | [], _, st => some st
  | r :: rest, currentX, st =>
    if some r ∈ st.processedPeople then rootsLoop data spacing rest currentX st
    else
      match layoutFamilyUnitF (layoutFuel data) r currentX 0 data spacing st with
      | none => none
      | some (w, st1) => rootsLoop data spacing rest (currentX + w + spacing.siblings) st1

/-- The placement pass of calculateLayout: find the roots and lay each one
out from x cursor zero. -/
def layoutPass (data : FamilyTreeData) (spacing : Spacing) : Option LayoutState :=
  let childMap := buildChildToPartnershipMap data
  let roots := findRootPeople data childMap
  rootsLoop data spacing roots 0 initState

/-- Conversion of the final position map to the node list: one node per
input person, defaulting to the origin when no position was recorded. -/
def nodesOf (data : FamilyTreeData) (st : LayoutState) : List LayoutNode :=
  data.people.map (fun p =>
    match alGet (some p.id) st.nodePositions with
    | some pos => ⟨p.id, pos.x, pos.y⟩
    | none => ⟨p.id, 0, 0⟩)

/-- calculateLayout from the source: merge the spacing defaults, run the
placement pass in the canonical top-down frame and apply the orientation
transform. -/
def calculateLayout (data : FamilyTreeData) (options : LayoutOptions) : Option LayoutResult :=
  let spacing := mergeSpacing options.spacing
  let orientation := options.orientation.getD .topDown
  match layoutPass data spacing with
  | none => none
  | some st =>
    some (transformLayout (nodesOf data st) st.partnershipConnections st.childConnections
      orientation)

/-! ## Specification-side definitions

These definitions follow the wording of the specification (sections 3, 4.1,
4.5, 7, 8) and are compared against the embedded source functions. -/

/-- The list of person ids of the graph. -/
def peopleIds (data : FamilyTreeData) : List String :=
  data.people.map (fun p => p.id)

/-- The parent relation induced by partnerships, from the spec: par is a
parent of c when some partnership lists c as a child and par in a partner
slot. -/
def parentOfP (data : FamilyTreeData) (par c : String) : Prop :=
  ∃ pt ∈ data.partnerships,
    c ∈ pt.childIds ∧ (pt.partnerIds.1 = some par ∨ pt.partnerIds.2 = some par)

/-- The ancestor relation: the transitive closure of the parent relation.
ancestorOfP data a b states that a is an ancestor of b. -/
def ancestorOfP (data : FamilyTreeData) (a b : String) : Prop :=
  Relation.TransGen (fun x y => parentOfP data x y) a b

/-- Modelled from the spec, section 3: the conjunction of every validator
invariant.  All ids non-empty after trimming and unique within their kind,
every partnership with at least one partner, every partner, child and root
reference resolving, and no person their own ancestor. -/
def SpecValid (data : FamilyTreeData) : Prop :=
  (∀ p ∈ data.people, isBlank p.id = false) ∧
  (peopleIds data).Nodup ∧
  (∀ pt ∈ data.partnerships, isBlank pt.id = false) ∧
  (data.partnerships.map (fun pt => pt.id)).Nodup ∧
  (∀ pt ∈ data.partnerships, ¬(pt.partnerIds.1 = none ∧ pt.partnerIds.2 = none)) ∧
  (∀ pt ∈ data.partnerships, ∀ q,
    (pt.partnerIds.1 = some q ∨ pt.partnerIds.2 = some q) → q ∈ peopleIds data) ∧
  (∀ pt ∈ data.partnerships, ∀ c ∈ pt.childIds, c ∈ peopleIds data) ∧
  (∀ r, data.rootPersonId = some r → r ∈ peopleIds data) ∧
  (∀ p ∈ data.people, ¬ ancestorOfP data p.id p.id)

/-- Reachability from a queue along the edges of a successor function,
avoiding expansion of visited elements.  This is the set of ids a
breadth-first search started at the queue can still report. -/
inductive ReachAvoid (f : String → List String) (queue visited : List String) : String → Prop
  | base {x : String} : x ∈ queue → ReachAvoid f queue visited x
  | step {a b : String} : ReachAvoid f queue visited a → a ∉ visited → b ∈ f a →
      ReachAvoid f queue visited b

/-- The fixed point map of the claim for each orientation: identity,
then x to (x, -y), (y, x), (-y, x). -/
def fixedMap : Orientation → Point → Point
  | .topDown, p => p
  | .bottomUp, p => ⟨p.x, -p.y⟩
  | .leftRight, p => ⟨p.y, p.x⟩
  | .rightLeft, p => ⟨-p.y, p.x⟩

/-- Number of child id occurrences not yet visited: the termination
measure of the width estimator. -/
def nuMeasure (data : FamilyTreeData) (vis : List (Option String)) : Nat :=
  ((allChildIds data).filter (fun i => some i ∉ vis)).length

/-- Number of partnership entries not yet processed: the termination
measure of the position assigner. -/
def kappaMeasure (data : FamilyTreeData) (pp : List String) : Nat :=
  (data.partnerships.filter (fun pt => pt.id ∉ pp)).length

/-- Positions recorded in the first session survive into the second. -/
def posPreserved (s t : LayoutState) : Prop :=
  ∀ k v, alGet k s.nodePositions = some v → alGet k t.nodePositions = some v

/-- Session evolution: the second session extends the first in every
component. -/
def Evolves (s t : LayoutState) : Prop :=
  posPreserved s t ∧
  s.processedPeople ⊆ t.processedPeople ∧
  s.processedPartnerships ⊆ t.processedPartnerships ∧
  (∀ pc ∈ s.partnershipConnections, pc ∈ t.partnershipConnections) ∧
  (∀ cc ∈ s.childConnections, cc ∈ t.childConnections)

/-- Session invariant: every person with a recorded position is marked
processed. -/
def StInv (s : LayoutState) : Prop :=
  ∀ k, (alGet k s.nodePositions).isSome → k ∈ s.processedPeople

/-- Geometric invariant of child connections: each one points back to a
partnership connection whose midpoint determines its drop point (half a
generation below the parents) and the generation of its child point (one
full generation below the parents). -/
def CCInv (spacing : Spacing) (s : LayoutState) : Prop :=
  ∀ cc ∈ s.childConnections, ∃ pc ∈ s.partnershipConnections,
    pc.partnershipId = cc.partnershipId ∧
    cc.dropPoint = ⟨pc.midpoint.x, pc.midpoint.y + spacing.generation / 2⟩ ∧
    cc.childPoint.y = pc.midpoint.y + spacing.generation

/-! ## Concrete inputs for counterexamples and witnesses -/

/-- The spacing used by the repository test suite. -/
def exSpacing : SpacingConfig := ⟨some 100, some 50, some 30⟩

/-- Default layout options with the test spacing. -/
def exOptions : LayoutOptions := ⟨exSpacing, none, none⟩

/-- Two partners with one shared child (scenario B of the spec). -/
def exSimple : FamilyTreeData :=
  ⟨[⟨"p1"⟩, ⟨"p2"⟩, ⟨"c1"⟩], [⟨"u1", (some "p1", some "p2"), ["c1"]⟩], none⟩

/-- Counterexample input for C3: partnership P3 joins D, a grandchild laid
out at generation two, with B, already placed at generation one as a
partner in P2. -/
def exLate : FamilyTreeData :=
  ⟨[⟨"R"⟩, ⟨"C"⟩, ⟨"B"⟩, ⟨"D"⟩],
   [⟨"P1", (some "R", none), ["C"]⟩,
    ⟨"P2", (some "C", some "B"), ["D"]⟩,
    ⟨"P3", (some "D", some "B"), []⟩], none⟩

/-- Counterexample input for C4: sibling c1 has a partnership of its own,
so its subtree is wider than a bare node. -/
def exWide : FamilyTreeData :=
  ⟨[⟨"p1"⟩, ⟨"p2"⟩, ⟨"c1"⟩, ⟨"c2"⟩, ⟨"s1"⟩],
   [⟨"u1", (some "p1", some "p2"), ["c1", "c2"]⟩,
    ⟨"u2", (some "c1", some "s1"), []⟩], none⟩

/-- Counterexample input for C5: the child p1 of u1 has a partnership u2,
so its connection point is the centre of its subtree slot rather than its
node position. -/
def exGrand : FamilyTreeData :=
  ⟨[⟨"gp1"⟩, ⟨"gp2"⟩, ⟨"p1"⟩, ⟨"p2"⟩, ⟨"c1"⟩],
   [⟨"u1", (some "gp1", some "gp2"), ["p1"]⟩,
    ⟨"u2", (some "p1", some "p2"), ["c1"]⟩], none⟩

/-- Counterexample input for C7: a dangling child in u1 listed before a
duplicated partnership id u2. -/
def exOrder : FamilyTreeData :=
  ⟨[⟨"a"⟩],
   [⟨"u1", (some "a", none), ["ghost"]⟩,
    ⟨"u2", (some "a", none), []⟩,
    ⟨"u2", (some "a", none), []⟩], none⟩

/-- Witness input for C10: B is placed as a partner inside the family unit
of root A, so when B is later reached as the child of R1 the early return
fires and the partnership P2 of B is never processed, leaving Y without a
recorded position. -/
def exSkip : FamilyTreeData :=
  ⟨[⟨"A"⟩, ⟨"R1"⟩, ⟨"B"⟩, ⟨"Y"⟩],
   [⟨"P1", (some "A", some "B"), []⟩,
    ⟨"P0", (some "R1", none), ["B"]⟩,
    ⟨"P2", (some "B", none), ["Y"]⟩], none⟩

/-- The single partnership of exSimple, used as the concrete partnership
unit in the partner-slot witness. -/
def exPt1 : Partnership := ⟨"u1", (some "p1", some "p2"), ["c1"]⟩

/-- Two partners with two childless children, the concrete input for the
sibling-gap witness. -/
def exTwo : FamilyTreeData :=
  ⟨[⟨"p1"⟩, ⟨"p2"⟩, ⟨"c1"⟩, ⟨"c2"⟩],
   [⟨"u1", (some "p1", some "p2"), ["c1", "c2"]⟩], none⟩

/-- The single partnership of exTwo. -/
def exU1 : Partnership := ⟨"u1", (some "p1", some "p2"), ["c1", "c2"]⟩

/-- The resolved test spacing: generation 100, siblings 50, partners 30. -/
def exSp : Spacing := mergeSpacing exSpacing

/-- The result of processing the partnership unit of exSimple from the
empty session, for the partner-gap witness. -/
def punitSimpleRes : ℚ × LayoutState :=
  (30,
   ⟨[(some "p1", ⟨0, 0⟩), (some "p2", ⟨30, 0⟩), (some "c1", ⟨15, 100⟩)],
    [⟨"u1", some "p1", some "p2", ⟨15, 0⟩⟩],
    [⟨"u1", "c1", ⟨15, 50⟩, ⟨15, 100⟩⟩],
    ["u1"],
    [some "p1", some "p2", some "c1"]⟩)

/-- The result of processing the partnership unit of exTwo from the empty
session, for the sibling-gap witness. -/
def punitTwoRes : ℚ × LayoutState :=
  (50,
   ⟨[(some "p1", ⟨10, 0⟩), (some "p2", ⟨40, 0⟩),
     (some "c1", ⟨0, 100⟩), (some "c2", ⟨50, 100⟩)],
    [⟨"u1", some "p1", some "p2", ⟨25, 0⟩⟩],
    [⟨"u1", "c1", ⟨25, 50⟩, ⟨0, 100⟩⟩, ⟨"u1", "c2", ⟨25, 50⟩, ⟨50, 100⟩⟩],
    ["u1"],
    [some "p1", some "p2", some "c1", some "c2"]⟩)

/-- The session the placement pass computes for exGrand, for the
child-connection witness. -/
def exGrandSt : LayoutState :=
  ⟨[(some "gp1", ⟨0, 0⟩), (some "gp2", ⟨30, 0⟩), (some "p1", ⟨0, 100⟩),
    (some "p2", ⟨30, 100⟩), (some "c1", ⟨15, 200⟩)],
   [⟨"u1", some "gp1", some "gp2", ⟨15, 0⟩⟩, ⟨"u2", some "p1", some "p2", ⟨15, 100⟩⟩],
   [⟨"u1", "p1", ⟨15, 50⟩, ⟨15, 100⟩⟩, ⟨"u2", "c1", ⟨15, 150⟩, ⟨15, 200⟩⟩],
   ["u1", "u2"],
   [some "gp1", some "gp2", some "p1", some "p2", some "c1"]⟩

/-- The width-estimator result for p1 of exSimple, for the frame witness. -/
def swSimpleRes : ℚ × List String × List (Option String) :=
  (30, [], [some "z", some "p1", some "c1"])

/-- The session the placement pass computes for exSkip, for the
default-origin witness. -/
def exSkipSt : LayoutState :=
  ⟨[(some "A", ⟨0, 0⟩), (some "B", ⟨30, 0⟩), (some "R1", ⟨80, 0⟩)],
   [⟨"P1", some "A", some "B", ⟨15, 0⟩⟩, ⟨"P0", some "R1", none, ⟨80, 0⟩⟩],
   [⟨"P0", "B", ⟨80, 50⟩, ⟨80, 100⟩⟩],
   ["P1", "P0"],
   [some "A", some "B", some "R1"]⟩

/-! ## Basic lemmas about the container embeddings -/

theorem alGet_nil {κ α : Type} [DecidableEq κ] (k : κ) :
    alGet k ([] : List (κ × α)) = none := rfl

theorem alGet_alSet_self {κ α : Type} [DecidableEq κ] (k : κ) (v : α) (m : List (κ × α)) :
    alGet k (alSet k v m) = some v := by
  induction m with
  | nil => simp [alGet, alSet]
  | cons h t ih =>
    obtain ⟨k1, v1⟩ := h
    by_cases hk : k1 = k
    · subst hk
      simp [alGet, alSet]
    · simp [alGet, alSet, hk, ih]

theorem alGet_alSet_ne {κ α : Type} [DecidableEq κ] {k k1 : κ} (v : α) (m : List (κ × α))
    (h : k1 ≠ k) : alGet k1 (alSet k v m) = alGet k1 m := by
  induction m with
  | nil => simp [alGet, alSet, Ne.symm h]
  | cons hd t ih =>
    obtain ⟨k2, v2⟩ := hd
    by_cases hk : k2 = k
    · subst hk
      simp [alGet, alSet, h, Ne.symm h]
    · by_cases hk1 : k2 = k1
      · subst hk1
        simp [alGet, alSet, hk]
      · simp [alGet, alSet, hk, hk1, ih]

theorem alGet_isSome_alSet {κ α : Type} [DecidableEq κ] (k k1 : κ) (v : α) (m : List (κ × α)) :
    (alGet k1 (alSet k v m)).isSome ↔ (k1 = k ∨ (alGet k1 m).isSome) := by
  by_cases h : k1 = k
  · subst h
    simp [alGet_alSet_self]
  · simp [alGet_alSet_ne v m h, h]

theorem alGet_eq_none_of_not_mem {κ α : Type} [DecidableEq κ] {k : κ} {m : List (κ × α)}
    (h : k ∉ m.map Prod.fst) : alGet k m = none := by
  induction m with
  | nil => rfl
  | cons hd t ih =>
    obtain ⟨k1, v1⟩ := hd
    simp only [List.map_cons, List.mem_cons] at h
    push_neg at h
    simp [alGet, Ne.symm h.1, ih h.2]

theorem mem_setAdd {κ : Type} [DecidableEq κ] (s : List κ) (x y : κ) :
    y ∈ setAdd s x ↔ y ∈ s ∨ y = x := by
  unfold setAdd
  by_cases h : x ∈ s
  · simp only [if_pos h]
    constructor
    · exact fun hy => Or.inl hy
    · rintro (hy | rfl)
      · exact hy
      · exact h
  · simp [if_neg h]

theorem subset_setAdd {κ : Type} [DecidableEq κ] (s : List κ) (x : κ) : s ⊆ setAdd s x := by
  intro y hy
  exact (mem_setAdd s x y).mpr (Or.inl hy)

theorem self_mem_setAdd {κ : Type} [DecidableEq κ] (s : List κ) (x : κ) : x ∈ setAdd s x :=
  (mem_setAdd s x x).mpr (Or.inr rfl)

theorem setAdd_of_not_mem {κ : Type} [DecidableEq κ] {s : List κ} {x : κ} (h : x ∉ s) :
    setAdd s x = s ++ [x] := by
  simp [setAdd, h]

/-! ## Counting lemmas used by the termination measures -/

theorem filter_notmem_length_mono {α β : Type} [DecidableEq β] (l : List α) (f : α → β)
    {v1 v2 : List β} (h : v1 ⊆ v2) :
    (l.filter (fun e => f e ∉ v2)).length ≤ (l.filter (fun e => f e ∉ v1)).length := by
  induction l with
  | nil => simp
  | cons a t ih =>
    by_cases h2 : f a ∈ v2
    · by_cases h1 : f a ∈ v1
      · simp only [List.filter_cons]
        simp [h1, h2] at ih ⊢
        all_goals omega
      · simp only [List.filter_cons]
        simp [h1, h2] at ih ⊢
        all_goals omega
    · have h1 : f a ∉ v1 := fun hc => h2 (h hc)
      simp only [List.filter_cons]
      simp [h1, h2] at ih ⊢
      all_goals omega

theorem filter_notmem_append_length {α β : Type} [DecidableEq β] (l : List α) (f : α → β)
    {v : List β} {a : α} (ha : a ∈ l) (hv : f a ∉ v) :
    (l.filter (fun e => f e ∉ v ++ [f a])).length + 1 ≤
      (l.filter (fun e => f e ∉ v)).length := by
  induction l with
  | nil => cases ha
  | cons b t ih =>
    have hsub : v ⊆ v ++ [f a] := by
      intro x hx
      exact List.mem_append.mpr (Or.inl hx)
    rcases List.mem_cons.mp ha with rfl | ht
    · have hmono := filter_notmem_length_mono t f hsub
      simp only [List.filter_cons]
      simp [hv] at hmono ⊢
      all_goals omega
    · have hstep := ih ht
      by_cases hb : f b ∈ v
      · have hbnew : f b ∈ v ++ [f a] := List.mem_append.mpr (Or.inl hb)
        simp only [List.filter_cons]
        simp [hb, hbnew] at hstep ⊢
        all_goals omega
      · by_cases hba : f b = f a
        · simp only [List.filter_cons]
          simp [hb, hba, hv] at hstep ⊢
          all_goals omega
        · have hbnew : f b ∉ v ++ [f a] := by
            intro hc
            rcases List.mem_append.mp hc with hc1 | hc2
            · exact hb hc1
            · exact hba (List.mem_singleton.mp hc2)
          simp only [List.filter_cons]
          simp [hb, hba] at hstep ⊢
          all_goals omega

theorem filter_notmem_sum_mono {α : Type} [DecidableEq α] (l : List α) (w : α → Nat)
    {v1 v2 : List α} (h : v1 ⊆ v2) :
    ((l.filter (fun e => e ∉ v2)).map w).sum ≤ ((l.filter (fun e => e ∉ v1)).map w).sum := by
  induction l with
  | nil => simp
  | cons a t ih =>
    by_cases h2 : a ∈ v2
    · by_cases h1 : a ∈ v1
      · simp only [List.filter_cons]
        simp [h1, h2] at ih ⊢
        all_goals omega
      · simp only [List.filter_cons]
        simp [h1, h2] at ih ⊢
        all_goals omega
    · have h1 : a ∉ v1 := fun hc => h2 (h hc)
      simp only [List.filter_cons]
      simp [h1, h2] at ih ⊢
      all_goals omega

theorem filter_notmem_append_sum {α : Type} [DecidableEq α] (l : List α) (w : α → Nat)
    {v : List α} {a : α} (ha : a ∈ l) (hv : a ∉ v) :
    ((l.filter (fun e => e ∉ v ++ [a])).map w).sum + w a ≤
      ((l.filter (fun e => e ∉ v)).map w).sum := by
  induction l with
  | nil => cases ha
  | cons b t ih =>
    have hsub : v ⊆ v ++ [a] := by
      intro x hx
      exact List.mem_append.mpr (Or.inl hx)
    rcases List.mem_cons.mp ha with rfl | ht
    · have hmono := filter_notmem_sum_mono t w hsub
      simp only [List.filter_cons]
      simp [hv] at hmono ⊢
      all_goals omega
    · have hstep := ih ht
      by_cases hb : b ∈ v
      · have hbnew : b ∈ v ++ [a] := List.mem_append.mpr (Or.inl hb)
        simp only [List.filter_cons]
        simp [hb, hbnew] at hstep ⊢
        all_goals omega
      · by_cases hba : b = a
        · subst hba
          simp only [List.filter_cons]
          simp [hb, hv] at hstep ⊢
          all_goals omega
        · have hbnew : b ∉ v ++ [a] := by
            intro hc
            rcases List.mem_append.mp hc with hc1 | hc2
            · exact hb hc1
            · exact hba (List.mem_singleton.mp hc2)
          simp only [List.filter_cons]
          simp [hb, hba] at hstep ⊢
          all_goals omega

/-! ## Breadth-first search: termination, soundness, completeness -/

theorem bfsCheck_isSome (pm : List (String × List String)) (t : String) :
    ∀ fuel queue visited, bfsPhi pm queue visited < fuel →
      (bfsCheck pm t fuel queue visited).isSome := by
  intro fuel
  induction fuel with
  | zero => intro q v h; exact absurd h (Nat.not_lt_zero _)
  | succ n ih =>
    intro q v h
    match q with
    | [] => simp [bfsCheck]
    | a :: q1 =>
      by_cases hat : a = t
      · simp [bfsCheck, hat]
      · by_cases hav : a ∈ v
        · have hq : bfsPhi pm q1 v < n := by
            unfold bfsPhi at h ⊢
            simp only [List.length_cons] at h
            omega
          simp only [bfsCheck, hat, hav, if_true, if_false, ite_true, ite_false]
          simpa [hat, hav] using ih q1 v hq
        · have key : bfsPhi pm (q1 ++ parentsIn pm a) (v ++ [a]) < n := by
            by_cases hdom : a ∈ pm.map Prod.fst
            · have h1 := filter_notmem_append_sum (pm.map Prod.fst)
                (fun i => (parentsIn pm i).length + 1) hdom hav
              simp only [] at h1
              unfold bfsPhi at h ⊢
              simp only [List.length_cons, List.length_append] at h ⊢
              omega
            · have hnone : parentsIn pm a = [] := by
                unfold parentsIn
                rw [alGet_eq_none_of_not_mem hdom]
                rfl
              have hsub : v ⊆ v ++ [a] := fun x hx => List.mem_append.mpr (Or.inl hx)
              have h1 := filter_notmem_sum_mono (pm.map Prod.fst)
                (fun i => (parentsIn pm i).length + 1) hsub
              unfold bfsPhi at h ⊢
              rw [hnone]
              simp only [List.length_cons, List.length_append, List.length_nil] at h ⊢
              omega
          simpa [bfsCheck, hat, hav] using ih _ _ key

theorem bfsCheck_sound (pm : List (String × List String)) (t : String) (Anc : String → Prop)
    (hclosed : ∀ a b, Anc a → b ∈ parentsIn pm a → Anc b) :
    ∀ fuel queue visited, (∀ x ∈ queue, Anc x) →
      bfsCheck pm t fuel queue visited = some true → Anc t := by
  intro fuel
  induction fuel with
  | zero => intro q v hq h; simp [bfsCheck] at h
  | succ n ih =>
    intro q v hq h
    match q with
    | [] => simp [bfsCheck] at h
    | a :: q1 =>
      by_cases hat : a = t
      · subst hat
        exact hq a (List.mem_cons_self _ _)
      · by_cases hav : a ∈ v
        · simp only [bfsCheck, hat, hav, if_false, if_true, ite_true, ite_false] at h
          refine ih q1 v (fun x hx => hq x (List.mem_cons_of_mem _ hx)) ?_
          simpa [hat, hav] using h
        · simp only [bfsCheck, hat, hav, if_false, ite_false] at h
          refine ih (q1 ++ parentsIn pm a) (v ++ [a]) ?_ ?_
          · intro x hx
            rcases List.mem_append.mp hx with h1 | h2
            · exact hq x (List.mem_cons_of_mem _ h1)
            · exact hclosed a x (hq a (List.mem_cons_self _ _)) h2
          · simpa [hat, hav] using h

theorem reachAvoid_nil {f : String → List String} {v : List String} {x : String} :
    ¬ ReachAvoid f [] v x := by
  intro h
  induction h with
  | base hx => simp at hx
  | step _ _ _ ih => exact ih

theorem reachAvoid_transfer_visited {f : String → List String} {q1 v : List String}
    {a : String} (hav : a ∈ v) :
    ∀ x, ReachAvoid f (a :: q1) v x → x = a ∨ ReachAvoid f q1 v x := by
  intro x hx
  induction hx with
  | base hxq =>
    rcases List.mem_cons.mp hxq with h1 | h2
    · exact Or.inl h1
    · exact Or.inr (ReachAvoid.base h2)
  | step _ hnv hbf ih =>
    rcases ih with rfl | hr
    · exact absurd hav hnv
    · exact Or.inr (ReachAvoid.step hr hnv hbf)

theorem reachAvoid_transfer_unvisited {f : String → List String} {q1 v : List String}
    {a : String} :
    ∀ x, ReachAvoid f (a :: q1) v x → x = a ∨ ReachAvoid f (q1 ++ f a) (v ++ [a]) x := by
  intro x hx
  induction hx with
  | base hxq =>
    rcases List.mem_cons.mp hxq with h1 | h2
    · exact Or.inl h1
    · exact Or.inr (ReachAvoid.base (List.mem_append.mpr (Or.inl h2)))
  | step hra hnv hbf ih =>
    rename_i a0 b0
    by_cases ha0 : a0 = a
    · subst ha0
      exact Or.inr (ReachAvoid.base (List.mem_append.mpr (Or.inr hbf)))
    · rcases ih with h1 | hr
      · exact absurd h1 ha0
      · refine Or.inr (ReachAvoid.step hr ?_ hbf)
        intro hc
        rcases List.mem_append.mp hc with h1 | h2
        · exact hnv h1
        · exact ha0 (List.mem_singleton.mp h2)

theorem bfsCheck_complete (pm : List (String × List String)) (t : String) :
    ∀ fuel queue visited, bfsCheck pm t fuel queue visited = some false →
      ∀ x, ReachAvoid (parentsIn pm) queue visited x → x ≠ t := by
  intro fuel
  induction fuel with
  | zero => intro q v h; simp [bfsCheck] at h
  | succ n ih =>
    intro q v h x hx
    match q with
    | [] => exact absurd hx reachAvoid_nil
    | a :: q1 =>
      by_cases hat : a = t
      · simp [bfsCheck, hat] at h
      · by_cases hav : a ∈ v
        · have h1 : bfsCheck pm t n q1 v = some false := by
            simpa [bfsCheck, hat, hav] using h
          rcases reachAvoid_transfer_visited hav x hx with rfl | hr
          · exact hat
          · exact ih q1 v h1 x hr
        · have h1 : bfsCheck pm t n (q1 ++ parentsIn pm a) (v ++ [a]) = some false := by
            simpa [bfsCheck, hat, hav] using h
          rcases reachAvoid_transfer_unvisited x hx with rfl | hr
          · exact hat
          · exact ih _ _ h1 x hr

/-! ## Characterization of the parent map -/

theorem mem_foldl_setAdd {κ : Type} [DecidableEq κ] (ps : List κ) :
    ∀ (s : List κ) (x : κ), x ∈ ps.foldl setAdd s ↔ x ∈ s ∨ x ∈ ps := by
  induction ps with
  | nil => intro s x; simp
  | cons p rest ih =>
    intro s x
    rw [List.foldl_cons, ih]
    rw [mem_setAdd]
    simp only [List.mem_cons]
    tauto

theorem alGet_initFold (people : List PersonNode) :
    ∀ (m0 : List (String × List String)) (i : String),
      alGet i (people.foldl (fun m p => alSet p.id ([] : List String) m) m0) =
        if i ∈ people.map (fun p => p.id) then some [] else alGet i m0 := by
  induction people with
  | nil => intro m0 i; simp
  | cons p rest ih =>
    intro m0 i
    rw [List.foldl_cons, ih]
    by_cases hr : i ∈ rest.map (fun p => p.id)
    · simp [hr]
    · by_cases hp : i = p.id
      · subst hp
        simp [hr, alGet_alSet_self]
      · have : p.id ≠ i := fun hc => hp hc.symm
        simp [hr, hp, alGet_alSet_ne _ _ (Ne.symm this)]

theorem isSome_addParents (c : String) (ps : List String)
    (m : List (String × List String)) (i : String) :
    (alGet i (addParents c ps m)).isSome = (alGet i m).isSome := by
  unfold addParents
  cases hm : alGet c m with
  | none => rfl
  | some s =>
    by_cases hic : i = c
    · subst hic
      simp [alGet_alSet_self, hm]
    · simp [alGet_alSet_ne _ _ hic]

theorem mem_parents_addParents (c : String) (ps : List String)
    (m : List (String × List String)) (i x : String) :
    x ∈ parentsIn (addParents c ps m) i ↔
      x ∈ parentsIn m i ∨ (i = c ∧ (alGet c m).isSome ∧ x ∈ ps) := by
  unfold addParents
  cases hm : alGet c m with
  | none => simp [hm]
  | some s =>
    by_cases hic : i = c
    · subst hic
      unfold parentsIn
      rw [alGet_alSet_self, hm]
      simp only [Option.getD_some, Option.isSome_some]
      rw [mem_foldl_setAdd]
      tauto
    · unfold parentsIn
      rw [alGet_alSet_ne _ _ hic]
      simp [hic]

theorem isSome_childFold (ps : List String) (cs : List String) :
    ∀ (m : List (String × List String)) (i : String),
      (alGet i (cs.foldl (fun m2 c => addParents c ps m2) m)).isSome = (alGet i m).isSome := by
  induction cs with
  | nil => intro m i; rfl
  | cons c rest ih =>
    intro m i
    rw [List.foldl_cons, ih, isSome_addParents]

theorem mem_parents_childFold (ps : List String) (cs : List String) :
    ∀ (m : List (String × List String)) (i x : String),
      x ∈ parentsIn (cs.foldl (fun m2 c => addParents c ps m2) m) i ↔
        x ∈ parentsIn m i ∨ ((alGet i m).isSome ∧ i ∈ cs ∧ x ∈ ps) := by
  induction cs with
  | nil => intro m i x; simp
  | cons c rest ih =>
    intro m i x
    rw [List.foldl_cons, ih, mem_parents_addParents, isSome_addParents]
    by_cases hic : i = c
    · subst hic
      simp only [List.mem_cons, true_and]
      tauto
    · simp only [List.mem_cons]
      have : (i = c) ↔ False := ⟨hic, False.elim⟩
      tauto

theorem isSome_partsFold (P : List Partnership) :
    ∀ (m : List (String × List String)) (i : String),
      (alGet i (P.foldl
        (fun m pt => pt.childIds.foldl (fun m2 c => addParents c (partnersList pt) m2) m)
        m)).isSome = (alGet i m).isSome := by
  induction P with
  | nil => intro m i; rfl
  | cons pt rest ih =>
    intro m i
    rw [List.foldl_cons, ih, isSome_childFold]

theorem mem_parents_partsFold (P : List Partnership) :
    ∀ (m : List (String × List String)) (i x : String),
      x ∈ parentsIn (P.foldl
          (fun m pt => pt.childIds.foldl (fun m2 c => addParents c (partnersList pt) m2) m)
          m) i ↔
        x ∈ parentsIn m i ∨
          ((alGet i m).isSome ∧ ∃ pt ∈ P, i ∈ pt.childIds ∧ x ∈ partnersList pt) := by
  induction P with
  | nil => intro m i x; simp
  | cons pt rest ih =>
    intro m i x
    rw [List.foldl_cons, ih, mem_parents_childFold, isSome_childFold]
    constructor
    · rintro ((h1 | h2) | h4)
      · exact Or.inl h1
      · exact Or.inr ⟨h2.1, pt, List.mem_cons_self _ _, h2.2⟩
      · obtain ⟨hs, pt2, hpt2, hmem⟩ := h4
        exact Or.inr ⟨hs, pt2, List.mem_cons_of_mem _ hpt2, hmem⟩
    · rintro (h1 | ⟨hs, pt2, hpt2, hci, hx⟩)
      · exact Or.inl (Or.inl h1)
      · rcases List.mem_cons.mp hpt2 with rfl | hrest
        · exact Or.inl (Or.inr ⟨hs, hci, hx⟩)
        · exact Or.inr ⟨hs, pt2, hrest, hci, hx⟩

theorem mem_partnersList (pt : Partnership) (x : String) :
    x ∈ partnersList pt ↔ (pt.partnerIds.1 = some x ∨ pt.partnerIds.2 = some x) := by
  unfold partnersList
  cases h1 : pt.partnerIds.1 <;> cases h2 : pt.partnerIds.2 <;>
    simp [Option.toList, eq_comm]

theorem isSome_buildParentMap (data : FamilyTreeData) (i : String) :
    (alGet i (buildParentMap data)).isSome ↔ i ∈ peopleIds data := by
  unfold buildParentMap
  rw [isSome_partsFold, alGet_initFold]
  unfold peopleIds
  by_cases h : i ∈ data.people.map (fun p => p.id) <;> simp [h, alGet_nil]

theorem parentsIn_initFold (data : FamilyTreeData) (i : String) :
    parentsIn (data.people.foldl (fun m p => alSet p.id ([] : List String) m) []) i = [] := by
  unfold parentsIn
  rw [alGet_initFold]
  by_cases h : i ∈ data.people.map (fun p => p.id) <;> simp [h, alGet_nil]

theorem mem_buildParentMap (data : FamilyTreeData) (i x : String) :
    x ∈ parentsIn (buildParentMap data) i ↔
      i ∈ peopleIds data ∧ parentOfP data x i := by
  unfold buildParentMap
  rw [mem_parents_partsFold]
  rw [show (data.people.foldl (fun m p => alSet p.id ([] : List String) m) []) =
    (data.people.foldl (fun m p => alSet p.id ([] : List String) m) []) from rfl]
  have h1 := parentsIn_initFold data i
  unfold buildParentMap at h1
  rw [h1]
  rw [alGet_initFold]
  unfold parentOfP peopleIds
  constructor
  · rintro (h | h)
    · simp at h
    · by_cases hm : i ∈ data.people.map (fun p => p.id)
      · refine ⟨hm, ?_⟩
        obtain ⟨_, pt, hpt, hci, hx⟩ := h
        exact ⟨pt, hpt, hci, (mem_partnersList pt x).mp hx⟩
      · simp [hm, alGet_nil] at h
  · rintro ⟨hm, pt, hpt, hci, hx⟩
    refine Or.inr ⟨?_, pt, hpt, hci, (mem_partnersList pt x).mpr hx⟩
    simp [hm, alGet_nil]

/-! ## Validator phase characterizations -/

theorem blank_of {s : String} (h : s = "" ∨ isBlank s = true) : isBlank s = true := by
  rcases h with rfl | h
  · decide
  · exact h

theorem collectPersonIds_ok_val :
    ∀ (l : List PersonNode) (acc ids : List String),
      collectPersonIds l acc = .ok ids → ids = acc ++ l.map (fun p => p.id) := by
  intro l
  induction l with
  | nil =>
    intro acc ids h
    simp only [collectPersonIds] at h
    cases h
    simp
  | cons p rest ih =>
    intro acc ids h
    by_cases h1 : p.id = "" ∨ isBlank p.id = true
    · simp [collectPersonIds, h1] at h
    · by_cases h2 : p.id ∈ acc
      · simp [collectPersonIds, h1, h2] at h
      · simp only [collectPersonIds, h1, h2, if_false, ite_false] at h
        have h3 := ih _ _ (by simpa [h1, h2] using h)
        simp [h3]

theorem collectPersonIds_ok_of :
    ∀ (l : List PersonNode) (acc : List String),
      (∀ p ∈ l, isBlank p.id = false) → (l.map (fun p => p.id)).Nodup →
      (∀ p ∈ l, p.id ∉ acc) →
      collectPersonIds l acc = .ok (acc ++ l.map (fun p => p.id)) := by
  intro l
  induction l with
  | nil => intro acc _ _ _; simp [collectPersonIds]
  | cons p rest ih =>
    intro acc htrim hnd hacc
    have h1 : ¬(p.id = "" ∨ isBlank p.id = true) := by
      intro hc
      have := htrim p (List.mem_cons_self _ _)
      rw [blank_of hc] at this
      cases this
    have h2 : p.id ∉ acc := hacc p (List.mem_cons_self _ _)
    have hhead : p.id ∉ rest.map (fun q => q.id) := by
      simp only [List.map_cons, List.nodup_cons] at hnd
      exact hnd.1
    have hrec := ih (acc ++ [p.id])
      (fun q hq => htrim q (List.mem_cons_of_mem _ hq))
      (by simp only [List.map_cons, List.nodup_cons] at hnd; exact hnd.2)
      (by
        intro q hq hc
        rcases List.mem_append.mp hc with hc1 | hc2
        · exact hacc q (List.mem_cons_of_mem _ hq) hc1
        · exact hhead (by
            rw [← List.mem_singleton.mp hc2]
            exact List.mem_map_of_mem _ hq))
    simp only [collectPersonIds, h1, h2, if_false, ite_false]
    simpa [h1, h2, List.append_assoc] using hrec

theorem collectPersonIds_ok_conds :
    ∀ (l : List PersonNode) (acc ids : List String), collectPersonIds l acc = .ok ids →
      (∀ p ∈ l, isBlank p.id = false) ∧ (l.map (fun p => p.id)).Nodup ∧
        (∀ p ∈ l, p.id ∉ acc) := by
  intro l
  induction l with
  | nil =>
    intro acc ids _
    refine ⟨?_, ?_, ?_⟩ <;> simp
  | cons p rest ih =>
    intro acc ids h
    by_cases h1 : p.id = "" ∨ isBlank p.id = true
    · simp [collectPersonIds, h1] at h
    · by_cases h2 : p.id ∈ acc
      · simp [collectPersonIds, h1, h2] at h
      · have h3 : collectPersonIds rest (acc ++ [p.id]) = .ok ids := by
          simpa [collectPersonIds, h1, h2] using h
        obtain ⟨ht, hn, ha⟩ := ih _ _ h3
        refine ⟨?_, ?_, ?_⟩
        · intro q hq
          rcases List.mem_cons.mp hq with rfl | hrest
          · rcases Bool.eq_false_or_eq_true (isBlank q.id) with hb | hb
            · exact absurd (Or.inr hb) h1
            · exact hb
          · exact ht q hrest
        · simp only [List.map_cons, List.nodup_cons]
          refine ⟨?_, hn⟩
          intro hc
          obtain ⟨q, hq, hqeq⟩ := List.mem_map.mp hc
          have := ha q hq
          rw [hqeq] at this
          exact this (List.mem_append.mpr (Or.inr (List.mem_singleton.mpr rfl)))
        · intro q hq
          rcases List.mem_cons.mp hq with rfl | hrest
          · exact h2
          · intro hc
            exact ha q hrest (List.mem_append.mpr (Or.inl hc))

theorem checkPartner_ok_iff (personIds : List String) (ptId : String) (o : Option String) :
    partnershipCheck.checkPartner personIds ptId o = .ok () ↔
      ∀ q, o = some q → q ∈ personIds := by
  cases o with
  | none => simp [partnershipCheck.checkPartner]
  | some q =>
    by_cases h : q ∈ personIds <;> simp [partnershipCheck.checkPartner, h]

theorem checkChildren_ok_iff (personIds : List String) (ptId : String) :
    ∀ cs, partnershipCheck.checkChildren personIds ptId cs = .ok () ↔
      ∀ c ∈ cs, c ∈ personIds := by
  intro cs
  induction cs with
  | nil => simp [partnershipCheck.checkChildren]
  | cons c rest ih =>
    by_cases h : c ∈ personIds
    · simp [partnershipCheck.checkChildren, h, ih]
    · simp [partnershipCheck.checkChildren, h]

theorem partnershipCheck_ok_iff (personIds pids : List String) (pt : Partnership) :
    partnershipCheck personIds pids pt = .ok () ↔
      (isBlank pt.id = false ∧ pt.id ∉ pids ∧
        ¬(pt.partnerIds.1 = none ∧ pt.partnerIds.2 = none) ∧
        (∀ q, pt.partnerIds.1 = some q → q ∈ personIds) ∧
        (∀ q, pt.partnerIds.2 = some q → q ∈ personIds) ∧
        (∀ c ∈ pt.childIds, c ∈ personIds)) := by
  unfold partnershipCheck
  by_cases h1 : pt.id = "" ∨ isBlank pt.id = true
  · simp only [h1, if_true, ite_true]
    constructor
    · intro h; cases h
    · rintro ⟨ht, _⟩
      rw [blank_of h1] at ht
      cases ht
  · by_cases h2 : pt.id ∈ pids
    · simp [h1, h2]
    · by_cases h3 : pt.partnerIds.1 = none ∧ pt.partnerIds.2 = none
      · simp [h1, h2, h3]
      · rw [if_neg h1, if_neg h2, if_neg h3]
        cases hc1 : partnershipCheck.checkPartner personIds pt.id pt.partnerIds.1 with
        | error e =>
          simp only []
          constructor
          · intro h; cases h
          · rintro ⟨_, _, _, hp1, _, _⟩
            rw [(checkPartner_ok_iff personIds pt.id pt.partnerIds.1).mpr hp1] at hc1
            cases hc1
        | ok u =>
          cases u
          cases hc2 : partnershipCheck.checkPartner personIds pt.id pt.partnerIds.2 with
          | error e =>
            simp only []
            constructor
            · intro h; cases h
            · rintro ⟨_, _, _, _, hp2, _⟩
              rw [(checkPartner_ok_iff personIds pt.id pt.partnerIds.2).mpr hp2] at hc2
              cases hc2
          | ok u =>
            cases u
            simp only []
            rw [checkChildren_ok_iff]
            have hp1 := (checkPartner_ok_iff personIds pt.id pt.partnerIds.1).mp hc1
            have hp2 := (checkPartner_ok_iff personIds pt.id pt.partnerIds.2).mp hc2
            have hne : isBlank pt.id = false := by
              rcases Bool.eq_false_or_eq_true (isBlank pt.id) with hb | hb
              · exact absurd (Or.inr hb) h1
              · exact hb
            constructor
            · intro h
              exact ⟨hne, h2, h3, hp1, hp2, h⟩
            · rintro ⟨_, _, _, _, _, h⟩
              exact h

theorem validatePartnerships_ok_val (personIds : List String) :
    ∀ (l : List Partnership) (pids ids : List String),
      validatePartnerships personIds l pids = .ok ids →
        ids = pids ++ l.map (fun pt => pt.id) := by
  intro l
  induction l with
  | nil =>
    intro pids ids h
    simp only [validatePartnerships] at h
    cases h
    simp
  | cons pt rest ih =>
    intro pids ids h
    cases hc : partnershipCheck personIds pids pt with
    | error e => rw [validatePartnerships, hc] at h; cases h
    | ok u =>
      cases u
      rw [validatePartnerships, hc] at h
      have h3 := ih _ _ h
      simp [h3]

theorem validatePartnerships_ok_conds (personIds : List String) :
    ∀ (l : List Partnership) (pids ids : List String),
      validatePartnerships personIds l pids = .ok ids →
        (∀ pt ∈ l, isBlank pt.id = false ∧
          ¬(pt.partnerIds.1 = none ∧ pt.partnerIds.2 = none) ∧
          (∀ q, pt.partnerIds.1 = some q → q ∈ personIds) ∧
          (∀ q, pt.partnerIds.2 = some q → q ∈ personIds) ∧
          (∀ c ∈ pt.childIds, c ∈ personIds)) ∧
        (l.map (fun pt => pt.id)).Nodup ∧ (∀ pt ∈ l, pt.id ∉ pids) := by
  intro l
  induction l with
  | nil =>
    intro pids ids _
    refine ⟨?_, ?_, ?_⟩ <;> simp
  | cons pt rest ih =>
    intro pids ids h
    cases hc : partnershipCheck personIds pids pt with
    | error e => rw [validatePartnerships, hc] at h; cases h
    | ok u =>
      cases u
      rw [validatePartnerships, hc] at h
      obtain ⟨hconds, hnd, hnp⟩ := ih _ _ h
      obtain ⟨ht, hp, hbn, hp1, hp2, hch⟩ := (partnershipCheck_ok_iff personIds pids pt).mp hc
      refine ⟨?_, ?_, ?_⟩
      · intro q hq
        rcases List.mem_cons.mp hq with rfl | hrest
        · exact ⟨ht, hbn, hp1, hp2, hch⟩
        · exact hconds q hrest
      · simp only [List.map_cons, List.nodup_cons]
        refine ⟨?_, hnd⟩
        intro hcmem
        obtain ⟨q, hq, hqeq⟩ := List.mem_map.mp hcmem
        have := hnp q hq
        rw [hqeq] at this
        exact this (List.mem_append.mpr (Or.inr (List.mem_singleton.mpr rfl)))
      · intro q hq
        rcases List.mem_cons.mp hq with rfl | hrest
        · exact hp
        · intro hcmem
          exact hnp q hrest (List.mem_append.mpr (Or.inl hcmem))

theorem validatePartnerships_ok_of (personIds : List String) :
    ∀ (l : List Partnership) (pids : List String),
      (∀ pt ∈ l, isBlank pt.id = false ∧
        ¬(pt.partnerIds.1 = none ∧ pt.partnerIds.2 = none) ∧
        (∀ q, pt.partnerIds.1 = some q → q ∈ personIds) ∧
        (∀ q, pt.partnerIds.2 = some q → q ∈ personIds) ∧
        (∀ c ∈ pt.childIds, c ∈ personIds)) →
      (l.map (fun pt => pt.id)).Nodup → (∀ pt ∈ l, pt.id ∉ pids) →
      validatePartnerships personIds l pids = .ok (pids ++ l.map (fun pt => pt.id)) := by
  intro l
  induction l with
  | nil => intro pids _ _ _; simp [validatePartnerships]
  | cons pt rest ih =>
    intro pids hconds hnd hnp
    obtain ⟨ht, hbn, hp1, hp2, hch⟩ := hconds pt (List.mem_cons_self _ _)
    have hc : partnershipCheck personIds pids pt = .ok () := by
      rw [partnershipCheck_ok_iff]
      exact ⟨ht, hnp pt (List.mem_cons_self _ _), hbn, hp1, hp2, hch⟩
    have hhead : pt.id ∉ rest.map (fun q => q.id) := by
      simp only [List.map_cons, List.nodup_cons] at hnd
      exact hnd.1
    have hrec := ih (pids ++ [pt.id])
      (fun q hq => hconds q (List.mem_cons_of_mem _ hq))
      (by simp only [List.map_cons, List.nodup_cons] at hnd; exact hnd.2)
      (by
        intro q hq hcm
        rcases List.mem_append.mp hcm with hc1 | hc2
        · exact hnp q (List.mem_cons_of_mem _ hq) hc1
        · exact hhead (by
            rw [← List.mem_singleton.mp hc2]
            exact List.mem_map_of_mem _ hq))
    rw [validatePartnerships, hc, hrec]
    simp [List.append_assoc]

/-! ## Cycle detection characterization -/

theorem personCycleCheck_isSome (pm : List (String × List String)) (pid : String) :
    (personCycleCheck pm pid).isSome := by
  unfold personCycleCheck
  exact bfsCheck_isSome pm pid _ _ _ (Nat.lt_succ_self _)

theorem personCycleCheck_sound (data : FamilyTreeData) (p : String)
    (h : personCycleCheck (buildParentMap data) p = some true) :
    ancestorOfP data p p := by
  unfold personCycleCheck at h
  refine bfsCheck_sound (buildParentMap data) p (fun x => ancestorOfP data x p) ?_ _ _ _ ?_ h
  · intro a b ha hb
    have hm := (mem_buildParentMap data a b).mp hb
    exact Relation.TransGen.head hm.2 ha
  · intro x hx
    have hm := (mem_buildParentMap data p x).mp hx
    exact Relation.TransGen.single hm.2

theorem ancestor_reach (data : FamilyTreeData)
    (hrefs : ∀ pt ∈ data.partnerships, ∀ c ∈ pt.childIds, c ∈ peopleIds data)
    (p : String) (hp : p ∈ peopleIds data) {a : String} (h : ancestorOfP data a p) :
    ReachAvoid (parentsIn (buildParentMap data)) (parentsIn (buildParentMap data) p) [] a := by
  unfold ancestorOfP at h
  induction h using Relation.TransGen.head_induction_on with
  | base hr =>
    rename_i a0
    exact ReachAvoid.base ((mem_buildParentMap data p a0).mpr ⟨hp, hr⟩)
  | ih hr h2 ih =>
    rename_i a0 c0
    have hc0 : c0 ∈ peopleIds data := by
      obtain ⟨pt, hpt, hci, _⟩ := hr
      exact hrefs pt hpt c0 hci
    refine ReachAvoid.step ih (by simp) ?_
    exact (mem_buildParentMap data c0 a0).mpr ⟨hc0, hr⟩

theorem detectLoop_ok_iff (pm : List (String × List String)) :
    ∀ people, detectLoop pm people = .ok () ↔
      ∀ p ∈ people, personCycleCheck pm p.id ≠ some true := by
  intro people
  induction people with
  | nil => simp [detectLoop]
  | cons p rest ih =>
    cases hc : personCycleCheck pm p.id with
    | none =>
      rw [show detectLoop pm (p :: rest) = detectLoop pm rest by
        conv_lhs => unfold detectLoop
        rw [hc]]
      rw [ih]
      constructor
      · intro h q hq
        rcases List.mem_cons.mp hq with rfl | hr
        · rw [hc]; simp
        · exact h q hr
      · intro h q hq
        exact h q (List.mem_cons_of_mem _ hq)
    | some b =>
      cases b
      · rw [show detectLoop pm (p :: rest) = detectLoop pm rest by
          conv_lhs => unfold detectLoop
          rw [hc]]
        rw [ih]
        constructor
        · intro h q hq
          rcases List.mem_cons.mp hq with rfl | hr
          · rw [hc]; simp
          · exact h q hr
        · intro h q hq
          exact h q (List.mem_cons_of_mem _ hq)
      · constructor
        · intro h
          exfalso
          revert h
          unfold detectLoop
          rw [hc]
          intro h
          cases h
        · intro h
          exact absurd hc (h p (List.mem_cons_self _ _))

theorem detectCircular_ok_iff (data : FamilyTreeData)
    (hrefs : ∀ pt ∈ data.partnerships, ∀ c ∈ pt.childIds, c ∈ peopleIds data) :
    detectCircularReferences data = .ok () ↔
      ∀ p ∈ data.people, ¬ ancestorOfP data p.id p.id := by
  unfold detectCircularReferences
  rw [detectLoop_ok_iff]
  constructor
  · intro h p hp hanc
    have h1 := h p hp
    have h2 := personCycleCheck_isSome (buildParentMap data) p.id
    have h3 : personCycleCheck (buildParentMap data) p.id = some false := by
      cases hpc : personCycleCheck (buildParentMap data) p.id with
      | none => rw [hpc] at h2; cases h2
      | some b =>
        cases b
        · rfl
        · exact absurd hpc h1
    have hp2 : p.id ∈ peopleIds data := List.mem_map_of_mem _ hp
    have hreach := ancestor_reach data hrefs p.id hp2 hanc
    unfold personCycleCheck at h3
    exact bfsCheck_complete _ _ _ _ _ h3 p.id hreach rfl
  · intro h p hp hc
    exact h p hp (personCycleCheck_sound data p.id hc)

/-- The full validator characterization: validateFamilyTreeData succeeds
exactly on graphs satisfying every specification invariant. -/
theorem validate_ok_iff_spec (data : FamilyTreeData) :
    validateFamilyTreeData data = .ok () ↔ SpecValid data := by
  unfold validateFamilyTreeData
  constructor
  · intro h
    cases hcp : collectPersonIds data.people [] with
    | error e => rw [hcp] at h; cases h
    | ok personIds =>
      rw [hcp] at h
      dsimp only at h
      have hids : personIds = peopleIds data := by
        have := collectPersonIds_ok_val data.people [] personIds hcp
        simpa [peopleIds] using this
      obtain ⟨hblank, hnodup, _⟩ := collectPersonIds_ok_conds data.people [] personIds hcp
      cases hvp : validatePartnerships personIds data.partnerships [] with
      | error e => rw [hvp] at h; dsimp only at h; cases h
      | ok pids =>
        rw [hvp] at h
        dsimp only at h
        obtain ⟨hconds, hpnodup, _⟩ :=
          validatePartnerships_ok_conds personIds data.partnerships [] pids hvp
        have hrefs : ∀ pt ∈ data.partnerships, ∀ c ∈ pt.childIds, c ∈ peopleIds data := by
          intro pt hpt c hc
          rw [← hids]
          exact (hconds pt hpt).2.2.2.2 c hc
        have hpartner : ∀ pt ∈ data.partnerships, ∀ q,
            (pt.partnerIds.1 = some q ∨ pt.partnerIds.2 = some q) → q ∈ peopleIds data := by
          intro pt hpt q hq
          rw [← hids]
          rcases hq with h1 | h2
          · exact (hconds pt hpt).2.2.1 q h1
          · exact (hconds pt hpt).2.2.2.1 q h2
        have hroot : ∀ r, data.rootPersonId = some r → r ∈ peopleIds data := by
          intro r hr
          rw [hr] at h
          dsimp only at h
          by_cases hmem : r ∈ personIds
          · rw [← hids]; exact hmem
          · rw [if_neg hmem] at h; cases h
        have hdet : detectCircularReferences data = .ok () := by
          cases hrt : data.rootPersonId with
          | none => rw [hrt] at h; exact h
          | some r =>
            rw [hrt] at h
            dsimp only at h
            have hmem : r ∈ personIds := by
              by_cases hmem : r ∈ personIds
              · exact hmem
              · rw [if_neg hmem] at h; cases h
            rw [if_pos hmem] at h
            exact h
        refine ⟨hblank, by simpa [peopleIds] using hnodup,
          fun pt hpt => (hconds pt hpt).1, hpnodup,
          fun pt hpt => (hconds pt hpt).2.1, hpartner, hrefs, hroot, ?_⟩
        exact (detectCircular_ok_iff data hrefs).mp hdet
  · rintro ⟨hblank, hnodup, hpblank, hpnodup, hbn, hpartner, hrefs, hroot, hnocycle⟩
    have hcp : collectPersonIds data.people [] = .ok (peopleIds data) := by
      have := collectPersonIds_ok_of data.people [] hblank
        (by simpa [peopleIds] using hnodup) (by simp)
      simpa [peopleIds] using this
    rw [hcp]
    dsimp only
    have hvp : validatePartnerships (peopleIds data) data.partnerships [] =
        .ok ([] ++ data.partnerships.map (fun pt => pt.id)) := by
      refine validatePartnerships_ok_of (peopleIds data) data.partnerships []
        ?_ hpnodup (by simp)
      intro pt hpt
      exact ⟨hpblank pt hpt, hbn pt hpt,
        fun q hq => hpartner pt hpt q (Or.inl hq),
        fun q hq => hpartner pt hpt q (Or.inr hq),
        fun c hc => hrefs pt hpt c hc⟩
    rw [hvp]
    dsimp only
    have hdet : detectCircularReferences data = .ok () :=
      (detectCircular_ok_iff data hrefs).mpr hnocycle
    cases hrt : data.rootPersonId with
    | none => exact hdet
    | some r =>
      dsimp only
      rw [if_pos (hroot r hrt)]
      exact hdet

/-- Errors in earlier-listed partnerships win: whatever partnerships follow
a locally failing partnership, the loop reports the error of the failing
one, computed against the partnership ids accumulated so far. -/
theorem validatePartnerships_error_first (personIds : List String) :
    ∀ (pre : List Partnership) (pt : Partnership) (rest : List Partnership)
      (pids pids1 : List String) (e : String),
      validatePartnerships personIds pre pids = .ok pids1 →
      partnershipCheck personIds pids1 pt = .error e →
      validatePartnerships personIds (pre ++ pt :: rest) pids = .error e := by
  intro pre
  induction pre with
  | nil =>
    intro pt rest pids pids1 e hok hc
    simp only [validatePartnerships] at hok
    cases hok
    rw [List.nil_append]
    simp only [validatePartnerships]
    rw [hc]
  | cons q pre1 ih =>
    intro pt rest pids pids1 e hok hc
    cases hq : partnershipCheck personIds pids q with
    | error e2 =>
      simp only [validatePartnerships] at hok
      rw [hq] at hok
      cases hok
    | ok u =>
      cases u
      simp only [validatePartnerships] at hok
      rw [hq] at hok
      dsimp only at hok
      have hrec := ih pt rest _ _ e hok hc
      rw [List.cons_append]
      simp only [validatePartnerships]
      rw [hq]
      exact hrec

/-! ## Node list and orientation transform lemmas -/

theorem nodesOf_map_id (data : FamilyTreeData) (st : LayoutState) :
    (nodesOf data st).map (fun n => n.id) = peopleIds data := by
  unfold nodesOf peopleIds
  rw [List.map_map]
  apply List.map_congr_left
  intro p _
  dsimp only [Function.comp]
  cases alGet (some p.id) st.nodePositions <;> rfl

theorem transformLayout_nodes_map_id (nodes : List LayoutNode)
    (pcs : List PartnershipConnection) (ccs : List ChildConnection) (o : Orientation) :
    ((transformLayout nodes pcs ccs o).nodes).map (fun n => n.id) =
      nodes.map (fun n => n.id) := by
  unfold transformLayout
  by_cases h : o = .topDown
  · rw [if_pos h]
  · rw [if_neg h]
    dsimp only
    rw [List.map_map]
    apply List.map_congr_left
    intro n _
    dsimp only [Function.comp]

/-- transformLayout applies exactly the fixed point map of the claim to
every point-bearing field and keeps every other field. -/
theorem transformLayout_eq_fixedMap (nodes : List LayoutNode)
    (pcs : List PartnershipConnection) (ccs : List ChildConnection) (o : Orientation) :
    transformLayout nodes pcs ccs o =
      ⟨nodes.map (fun n =>
          ⟨n.id, (fixedMap o ⟨n.x, n.y⟩).x, (fixedMap o ⟨n.x, n.y⟩).y⟩),
       pcs.map (fun c => { c with midpoint := fixedMap o c.midpoint }),
       ccs.map (fun c => { c with dropPoint := fixedMap o c.dropPoint,
                                  childPoint := fixedMap o c.childPoint }),
       o⟩ := by
  cases o with
  | topDown =>
    unfold transformLayout
    rw [if_pos rfl]
    congr 1
    · conv_lhs => rw [← List.map_id nodes]
      apply List.map_congr_left
      intro n _
      rfl
    · conv_lhs => rw [← List.map_id pcs]
      apply List.map_congr_left
      intro c _
      rfl
    · conv_lhs => rw [← List.map_id ccs]
      apply List.map_congr_left
      intro c _
      rfl
  | bottomUp =>
    unfold transformLayout fixedMap transformPoint
    rfl
  | leftRight =>
    unfold transformLayout fixedMap transformPoint
    rfl
  | rightLeft =>
    unfold transformLayout fixedMap transformPoint
    rfl

/-! ## Width estimator: frame and termination -/

theorem calcSubtreeWidthF_succ (n : Nat) (pid : String) (data : FamilyTreeData)
    (spacing : Spacing) (pp : List String) (vis : List (Option String)) :
    calcSubtreeWidthF (n + 1) pid data spacing pp vis =
      if some pid ∈ vis then some (0, pp, vis)
      else
        let visited1 := setAdd vis (some pid)
        let parts := (getPartnershipsForPerson pid data).filter (fun p => p.id ∉ pp)
        if parts.isEmpty then some (0, pp, visited1)
        else
          match swPartsLoop (fun c pp2 v2 => calcSubtreeWidthF n c data spacing pp2 v2)
              spacing parts 0 pp visited1 with
          | none => none
          | some (total, pp1, vis1) =>
            some ((if parts.length > 1 then
                total + ((parts.length : ℚ) - 1) * spacing.siblings
              else total), pp1, vis1) := rfl

theorem swChildrenLoop_frame
    (go : String → List String → List (Option String) →
      Option (ℚ × List String × List (Option String)))
    (hgo : ∀ c pp vis r, go c pp vis = some r → r.2.1 = pp ∧ vis ⊆ r.2.2) :
    ∀ cs acc pp vis r, swChildrenLoop go cs acc pp vis = some r →
      r.2.1 = pp ∧ vis ⊆ r.2.2 := by
  intro cs
  induction cs with
  | nil =>
    intro acc pp vis r h
    simp only [swChildrenLoop] at h
    cases h
    exact ⟨rfl, fun x hx => hx⟩
  | cons c rest ih =>
    intro acc pp vis r h
    cases hg : go c pp vis with
    | none =>
      simp only [swChildrenLoop, hg] at h
      cases h
    | some r1 =>
      obtain ⟨w, pp1, vis1⟩ := r1
      simp only [swChildrenLoop, hg] at h
      have h1 := hgo c pp vis _ hg
      have h2 := ih _ _ _ _ h
      refine ⟨?_, fun x hx => h2.2 (h1.2 hx)⟩
      rw [h2.1]
      exact h1.1

theorem swPartsLoop_frame
    (go : String → List String → List (Option String) →
      Option (ℚ × List String × List (Option String)))
    (hgo : ∀ c pp vis r, go c pp vis = some r → r.2.1 = pp ∧ vis ⊆ r.2.2)
    (spacing : Spacing) :
    ∀ parts acc pp vis r, swPartsLoop go spacing parts acc pp vis = some r →
      r.2.1 = pp ∧ vis ⊆ r.2.2 := by
  intro parts
  induction parts with
  | nil =>
    intro acc pp vis r h
    simp only [swPartsLoop] at h
    cases h
    exact ⟨rfl, fun x hx => hx⟩
  | cons pt rest ih =>
    intro acc pp vis r h
    cases hg : swChildrenLoop go pt.childIds 0 pp vis with
    | none =>
      simp only [swPartsLoop, hg] at h
      cases h
    | some r1 =>
      obtain ⟨cw, pp1, vis1⟩ := r1
      simp only [swPartsLoop, hg] at h
      have h1 := swChildrenLoop_frame go hgo _ _ _ _ _ hg
      have h2 := ih _ _ _ _ h
      refine ⟨?_, fun x hx => h2.2 (h1.2 hx)⟩
      rw [h2.1]
      exact h1.1

theorem calcSubtreeWidthF_frame :
    ∀ (fuel : Nat) (pid : String) (data : FamilyTreeData) (spacing : Spacing)
      (pp : List String) (vis : List (Option String)) r,
      calcSubtreeWidthF fuel pid data spacing pp vis = some r →
        r.2.1 = pp ∧ vis ⊆ r.2.2 := by
  intro fuel
  induction fuel with
  | zero => intro pid data spacing pp vis r h; simp [calcSubtreeWidthF] at h
  | succ n ih =>
    intro pid data spacing pp vis r h
    rw [calcSubtreeWidthF_succ] at h
    by_cases hv : some pid ∈ vis
    · rw [if_pos hv] at h
      cases h
      exact ⟨rfl, fun x hx => hx⟩
    · rw [if_neg hv] at h
      dsimp only at h
      by_cases hemp : ((getPartnershipsForPerson pid data).filter
          (fun p => p.id ∉ pp)).isEmpty = true
      · rw [if_pos hemp] at h
        cases h
        exact ⟨rfl, subset_setAdd _ _⟩
      · rw [if_neg hemp] at h
        cases hsw : swPartsLoop (fun c pp2 v2 => calcSubtreeWidthF n c data spacing pp2 v2)
            spacing ((getPartnershipsForPerson pid data).filter (fun p => p.id ∉ pp))
            0 pp (setAdd vis (some pid)) with
        | none => rw [hsw] at h; cases h
        | some r1 =>
          obtain ⟨total, pp1, vis1⟩ := r1
          rw [hsw] at h
          dsimp only at h
          cases h
          have h1 := swPartsLoop_frame _ (fun c pp2 v2 r2 hr2 => ih c data spacing pp2 v2 r2 hr2)
            spacing _ _ _ _ _ hsw
          exact ⟨h1.1, fun x hx => h1.2 (subset_setAdd _ _ hx)⟩

theorem length_filter_mono_pred {α : Type} (l : List α) (p q : α → Bool)
    (h : ∀ a, q a = true → p a = true) : (l.filter q).length ≤ (l.filter p).length := by
  induction l with
  | nil => simp
  | cons a t ih =>
    cases hq : q a
    · cases hp : p a <;> simp [List.filter_cons, hq, hp] <;> omega
    · have hp := h a hq
      simp [List.filter_cons, hq, hp]
      omega

theorem length_filter_drop {α : Type} (l : List α) (p q : α → Bool) {a : α}
    (ha : a ∈ l) (hpa : p a = true) (hqa : q a = false)
    (h : ∀ b, q b = true → p b = true) :
    (l.filter q).length + 1 ≤ (l.filter p).length := by
  induction l with
  | nil => cases ha
  | cons b t ih =>
    rcases List.mem_cons.mp ha with rfl | ht
    · have := length_filter_mono_pred t p q h
      simp [List.filter_cons, hpa, hqa]
      omega
    · have step := ih ht
      cases hqb : q b
      · cases hpb : p b <;> simp [List.filter_cons, hqb, hpb] <;> omega
      · have hpb := h b hqb
        simp [List.filter_cons, hqb, hpb]
        omega

theorem mem_allChildIds {data : FamilyTreeData} {pt : Partnership} {c : String}
    (hpt : pt ∈ data.partnerships) (hc : c ∈ pt.childIds) : c ∈ allChildIds data := by
  unfold allChildIds
  exact List.mem_flatMap.mpr ⟨pt, hpt, hc⟩

theorem nuMeasure_le (data : FamilyTreeData) (vis : List (Option String)) :
    nuMeasure data vis ≤ (allChildIds data).length := by
  unfold nuMeasure
  exact List.length_filter_le _ _

theorem nuMeasure_mono (data : FamilyTreeData) {v1 v2 : List (Option String)}
    (h : v1 ⊆ v2) : nuMeasure data v2 ≤ nuMeasure data v1 := by
  unfold nuMeasure
  apply length_filter_mono_pred
  intro a ha
  simp only [decide_eq_true_eq] at ha ⊢
  exact fun hc => ha (h hc)

theorem nuMeasure_setAdd_lt (data : FamilyTreeData) {vis : List (Option String)}
    {pid : String} (hmem : pid ∈ allChildIds data) (hv : some pid ∉ vis) :
    nuMeasure data (setAdd vis (some pid)) + 1 ≤ nuMeasure data vis := by
  unfold nuMeasure
  rw [setAdd_of_not_mem hv]
  apply length_filter_drop (allChildIds data) _ _ hmem
  · simp only [decide_eq_true_eq]
    exact hv
  · simp only [decide_eq_false_iff_not]
    intro hc
    exact hc (List.mem_append.mpr (Or.inr (List.mem_singleton.mpr rfl)))
  · intro b hb
    simp only [decide_eq_true_eq] at hb ⊢
    intro hc
    exact hb (List.mem_append.mpr (Or.inl hc))

theorem swChildrenLoop_some (data : FamilyTreeData) (spacing : Spacing) (n : Nat)
    (go : String → List String → List (Option String) →
      Option (ℚ × List String × List (Option String)))
    (hgo_frame : ∀ c pp vis r, go c pp vis = some r → r.2.1 = pp ∧ vis ⊆ r.2.2)
    (hgo_some : ∀ c pp vis, c ∈ allChildIds data → nuMeasure data vis < n →
      (go c pp vis).isSome) :
    ∀ cs acc pp vis, (∀ c ∈ cs, c ∈ allChildIds data) → nuMeasure data vis < n →
      (swChildrenLoop go cs acc pp vis).isSome := by
  intro cs
  induction cs with
  | nil => intro acc pp vis _ _; simp [swChildrenLoop]
  | cons c rest ih =>
    intro acc pp vis hcs hn
    have h1 := hgo_some c pp vis (hcs c (List.mem_cons_self _ _)) hn
    cases hg : go c pp vis with
    | none => rw [hg] at h1; cases h1
    | some r1 =>
      obtain ⟨w, pp1, vis1⟩ := r1
      have hf := hgo_frame c pp vis _ hg
      simp only [swChildrenLoop, hg]
      exact ih _ _ _ (fun x hx => hcs x (List.mem_cons_of_mem _ hx))
        (lt_of_le_of_lt (nuMeasure_mono data hf.2) hn)

theorem swPartsLoop_some (data : FamilyTreeData) (spacing : Spacing) (n : Nat)
    (go : String → List String → List (Option String) →
      Option (ℚ × List String × List (Option String)))
    (hgo_frame : ∀ c pp vis r, go c pp vis = some r → r.2.1 = pp ∧ vis ⊆ r.2.2)
    (hgo_some : ∀ c pp vis, c ∈ allChildIds data → nuMeasure data vis < n →
      (go c pp vis).isSome) :
    ∀ parts acc pp vis, (∀ pt ∈ parts, ∀ c ∈ pt.childIds, c ∈ allChildIds data) →
      nuMeasure data vis < n →
      (swPartsLoop go spacing parts acc pp vis).isSome := by
  intro parts
  induction parts with
  | nil => intro acc pp vis _ _; simp [swPartsLoop]
  | cons pt rest ih =>
    intro acc pp vis hps hn
    have h1 := swChildrenLoop_some data spacing n go hgo_frame hgo_some pt.childIds 0 pp vis
      (fun c hc => hps pt (List.mem_cons_self _ _) c hc) hn
    cases hg : swChildrenLoop go pt.childIds 0 pp vis with
    | none => rw [hg] at h1; cases h1
    | some r1 =>
      obtain ⟨cw, pp1, vis1⟩ := r1
      have hf := swChildrenLoop_frame go hgo_frame _ _ _ _ _ hg
      simp only [swPartsLoop, hg]
      exact ih _ _ _ (fun q hq c hc => hps q (List.mem_cons_of_mem _ hq) c hc)
        (lt_of_le_of_lt (nuMeasure_mono data hf.2) hn)

theorem calcSubtreeWidthF_some :
    ∀ (fuel : Nat) (pid : String) (data : FamilyTreeData) (spacing : Spacing)
      (pp : List String) (vis : List (Option String)),
      pid ∈ allChildIds data → nuMeasure data vis < fuel →
      (calcSubtreeWidthF fuel pid data spacing pp vis).isSome := by
  intro fuel
  induction fuel with
  | zero => intro pid data spacing pp vis _ h; exact absurd h (Nat.not_lt_zero _)
  | succ n ih =>
    intro pid data spacing pp vis hmem hn
    rw [calcSubtreeWidthF_succ]
    by_cases hv : some pid ∈ vis
    · rw [if_pos hv]; rfl
    · rw [if_neg hv]
      dsimp only
      by_cases hemp : ((getPartnershipsForPerson pid data).filter
          (fun p => p.id ∉ pp)).isEmpty = true
      · rw [if_pos hemp]; rfl
      · rw [if_neg hemp]
        have hparts : ∀ pt ∈ (getPartnershipsForPerson pid data).filter
            (fun p => p.id ∉ pp), ∀ c ∈ pt.childIds, c ∈ allChildIds data := by
          intro pt hpt c hc
          have hpt2 : pt ∈ data.partnerships := by
            have := List.mem_filter.mp hpt
            have := List.mem_filter.mp (this.1 : pt ∈ _)
            exact this.1
          exact mem_allChildIds hpt2 hc
        have hlt : nuMeasure data (setAdd vis (some pid)) < n := by
          have := nuMeasure_setAdd_lt data hmem hv
          omega
        have hsw := swPartsLoop_some data spacing n
          (fun c pp2 v2 => calcSubtreeWidthF n c data spacing pp2 v2)
          (fun c pp2 v2 r hr => calcSubtreeWidthF_frame n c data spacing pp2 v2 r hr)
          (fun c pp2 v2 hc hn2 => ih c data spacing pp2 v2 hc hn2)
          _ 0 pp (setAdd vis (some pid)) hparts hlt
        cases hg : swPartsLoop (fun c pp2 v2 => calcSubtreeWidthF n c data spacing pp2 v2)
            spacing ((getPartnershipsForPerson pid data).filter (fun p => p.id ∉ pp))
            0 pp (setAdd vis (some pid)) with
        | none => rw [hg] at hsw; cases hsw
        | some r1 =>
          obtain ⟨total, pp1, vis1⟩ := r1
          rfl

/-! ## Position assigner: frame, monotonicity, termination -/

theorem layoutFamilyUnitF_succ (n : Nat) (personId : String) (startX y : ℚ)
    (data : FamilyTreeData) (spacing : Spacing) (st : LayoutState) :
    layoutFamilyUnitF (n + 1) personId startX y data spacing st =
      if some personId ∈ st.processedPeople then some (0, st)
      else
        let partnerships := getPartnershipsForPerson personId data
        if partnerships.isEmpty then
          some (0, { st with
            nodePositions := alSet (some personId) ⟨startX, y⟩ st.nodePositions,
            processedPeople := setAdd st.processedPeople (some personId) })
        else
          match punitLoop (fun c cx cy s => layoutFamilyUnitF n c cx cy data spacing s)
              data spacing startX y partnerships startX 0 st with
          | none => none
          | some (_, totalWidth, st1) => some (max 0 totalWidth, st1) := rfl

theorem kappaMeasure_le (data : FamilyTreeData) (pp : List String) :
    kappaMeasure data pp ≤ data.partnerships.length := by
  unfold kappaMeasure
  exact List.length_filter_le _ _

theorem kappaMeasure_mono (data : FamilyTreeData) {p1 p2 : List String}
    (h : p1 ⊆ p2) : kappaMeasure data p2 ≤ kappaMeasure data p1 := by
  unfold kappaMeasure
  apply length_filter_mono_pred
  intro a ha
  simp only [decide_eq_true_eq] at ha ⊢
  exact fun hc => ha (h hc)

theorem kappaMeasure_setAdd_lt (data : FamilyTreeData) {pp : List String}
    {pt : Partnership} (hpt : pt ∈ data.partnerships) (h : pt.id ∉ pp) :
    kappaMeasure data (setAdd pp pt.id) + 1 ≤ kappaMeasure data pp := by
  unfold kappaMeasure
  rw [setAdd_of_not_mem h]
  apply length_filter_drop data.partnerships _ _ hpt
  · simp only [decide_eq_true_eq]
    exact h
  · simp only [decide_eq_false_iff_not]
    intro hc
    exact hc (List.mem_append.mpr (Or.inr (List.mem_singleton.mpr rfl)))
  · intro b hb
    simp only [decide_eq_true_eq] at hb ⊢
    intro hc
    exact hb (List.mem_append.mpr (Or.inl hc))

theorem childWidthsLoop_frame (data : FamilyTreeData) (spacing : Spacing)
    (procPeople : List (Option String)) :
    ∀ cs ws total pp r, childWidthsLoop data spacing procPeople cs ws total pp = some r →
      r.2.2 = pp := by
  intro cs
  induction cs with
  | nil =>
    intro ws total pp r h
    simp only [childWidthsLoop] at h
    cases h
    rfl
  | cons c rest ih =>
    intro ws total pp r h
    cases hc : calcSubtreeWidthF (widthFuel data) c data spacing pp procPeople with
    | none =>
      simp only [childWidthsLoop, hc] at h
      cases h
    | some r1 =>
      obtain ⟨w, pp1, vis1⟩ := r1
      simp only [childWidthsLoop, hc] at h
      have hf := calcSubtreeWidthF_frame _ _ _ _ _ _ _ hc
      have h2 := ih _ _ _ _ h
      rw [h2]
      exact hf.1

theorem childWidthsLoop_some (data : FamilyTreeData) (spacing : Spacing)
    (procPeople : List (Option String)) :
    ∀ cs ws total pp, (∀ c ∈ cs, c ∈ allChildIds data) →
      (childWidthsLoop data spacing procPeople cs ws total pp).isSome := by
  intro cs
  induction cs with
  | nil => intro ws total pp _; simp [childWidthsLoop]
  | cons c rest ih =>
    intro ws total pp hcs
    have hn : nuMeasure data procPeople < widthFuel data := by
      have := nuMeasure_le data procPeople
      unfold widthFuel
      omega
    have h1 := calcSubtreeWidthF_some (widthFuel data) c data spacing pp procPeople
      (hcs c (List.mem_cons_self _ _)) hn
    cases hc : calcSubtreeWidthF (widthFuel data) c data spacing pp procPeople with
    | none => rw [hc] at h1; cases h1
    | some r1 =>
      obtain ⟨w, pp1, vis1⟩ := r1
      simp only [childWidthsLoop, hc]
      exact ih _ _ _ (fun x hx => hcs x (List.mem_cons_of_mem _ hx))

theorem placeChildrenLoop_pp_mono
    (go : String → ℚ → ℚ → LayoutState → Option (ℚ × LayoutState))
    (hgo : ∀ c cx cy s r, go c cx cy s = some r →
      s.processedPartnerships ⊆ r.2.processedPartnerships)
    (ptId : String) (mx y cy : ℚ) (spacing : Spacing) :
    ∀ zs cx st r, placeChildrenLoop go ptId mx y cy spacing zs cx st = some r →
      st.processedPartnerships ⊆ r.processedPartnerships := by
  intro zs
  induction zs with
  | nil =>
    intro cx st r h
    simp only [placeChildrenLoop] at h
    cases h
    exact fun x hx => hx
  | cons z rest ih =>
    obtain ⟨c, w⟩ := z
    intro cx st r h
    simp only [placeChildrenLoop] at h
    cases hg : go c cx cy { st with childConnections := st.childConnections ++
        [⟨ptId, c, ⟨mx, y + spacing.generation / 2⟩, ⟨cx + w / 2, cy⟩⟩] } with
    | none => rw [hg] at h; cases h
    | some r1 =>
      obtain ⟨w1, st2⟩ := r1
      rw [hg] at h
      dsimp only at h
      have h1 := hgo _ _ _ _ _ hg
      have h2 := ih _ _ _ h
      exact fun x hx => h2 (h1 hx)

theorem placePartners_pp (pt : Partnership) (p1X p2X y midpointX : ℚ) (st : LayoutState) :
    (placePartners pt p1X p2X y midpointX st).processedPartnerships =
      st.processedPartnerships := by
  unfold placePartners
  dsimp only
  split <;> split <;> rfl

theorem placePartners_people_mono (pt : Partnership) (p1X p2X y midpointX : ℚ)
    (st : LayoutState) :
    st.processedPeople ⊆ (placePartners pt p1X p2X y midpointX st).processedPeople := by
  unfold placePartners
  dsimp only
  split <;> split <;> intro x hx <;>
    first
      | exact hx
      | exact subset_setAdd _ _ hx
      | exact subset_setAdd _ _ (subset_setAdd _ _ hx)

theorem punitStep_pp_mono
    (go : String → ℚ → ℚ → LayoutState → Option (ℚ × LayoutState))
    (hgo : ∀ c cx cy s r, go c cx cy s = some r →
      s.processedPartnerships ⊆ r.2.processedPartnerships)
    (data : FamilyTreeData) (spacing : Spacing) (y : ℚ) (pt : Partnership)
    (currentX : ℚ) (st : LayoutState) (r : ℚ × LayoutState)
    (h : punitStep go data spacing y pt currentX st = some r) :
    st.processedPartnerships ⊆ r.2.processedPartnerships := by
  unfold punitStep at h
  dsimp only at h
  split at h
  · cases h
  · rename_i r1 childWidths cw pp1 heq
    have hpp1 : pp1 = setAdd st.processedPartnerships pt.id :=
      childWidthsLoop_frame data spacing _ _ _ _ _ _ heq
    have hsub1 : st.processedPartnerships ⊆ pp1 := by
      rw [hpp1]
      exact subset_setAdd _ _
    try dsimp only at h
    split at h
    · cases h
    · rename_i st6 heq2
      cases h
      split at heq2
      · have h2 := placeChildrenLoop_pp_mono go hgo _ _ _ _ _ _ _ _ _ heq2
        rw [placePartners_pp] at h2
        exact fun x hx => h2 (hsub1 hx)
      · cases heq2
        intro x hx
        rw [placePartners_pp]
        exact hsub1 hx

theorem punitLoop_pp_mono
    (go : String → ℚ → ℚ → LayoutState → Option (ℚ × LayoutState))
    (hgo : ∀ c cx cy s r, go c cx cy s = some r →
      s.processedPartnerships ⊆ r.2.processedPartnerships)
    (data : FamilyTreeData) (spacing : Spacing) (startX y : ℚ) :
    ∀ parts cx tw st r, punitLoop go data spacing startX y parts cx tw st = some r →
      st.processedPartnerships ⊆ r.2.2.processedPartnerships := by
  intro parts
  induction parts with
  | nil =>
    intro cx tw st r h
    simp only [punitLoop] at h
    cases h
    exact fun x hx => hx
  | cons pt rest ih =>
    intro cx tw st r h
    by_cases hpp : pt.id ∈ st.processedPartnerships
    · rw [punitLoop, if_pos hpp] at h
      exact ih _ _ _ _ h
    · rw [punitLoop, if_neg hpp] at h
      cases hstep : punitStep go data spacing y pt cx st with
      | none => rw [hstep] at h; cases h
      | some r1 =>
        obtain ⟨unitWidth, st6⟩ := r1
        rw [hstep] at h
        dsimp only at h
        have h1 := punitStep_pp_mono go hgo data spacing y pt cx st _ hstep
        have h2 := ih _ _ _ _ h
        exact fun x hx => h2 (h1 hx)

theorem layoutFamilyUnitF_pp_mono :
    ∀ (fuel : Nat) (pid : String) (sx y : ℚ) (data : FamilyTreeData)
      (spacing : Spacing) (st : LayoutState) r,
      layoutFamilyUnitF fuel pid sx y data spacing st = some r →
        st.processedPartnerships ⊆ r.2.processedPartnerships := by
  intro fuel
  induction fuel with
  | zero => intro pid sx y data spacing st r h; simp [layoutFamilyUnitF] at h
  | succ n ih =>
    intro pid sx y data spacing st r h
    rw [layoutFamilyUnitF_succ] at h
    by_cases hproc : some pid ∈ st.processedPeople
    · rw [if_pos hproc] at h
      cases h
      exact fun x hx => hx
    · rw [if_neg hproc] at h
      dsimp only at h
      by_cases hemp : (getPartnershipsForPerson pid data).isEmpty = true
      · rw [if_pos hemp] at h
        cases h
        exact fun x hx => hx
      · rw [if_neg hemp] at h
        cases hpl : punitLoop
            (fun c cx cy s => layoutFamilyUnitF n c cx cy data spacing s)
            data spacing sx y (getPartnershipsForPerson pid data) sx 0 st with
        | none => rw [hpl] at h; cases h
        | some r1 =>
          obtain ⟨cx1, tw1, st1⟩ := r1
          rw [hpl] at h
          dsimp only at h
          cases h
          exact punitLoop_pp_mono _
            (fun c cx cy s r2 hr2 => ih c cx cy data spacing s r2 hr2)
            data spacing sx y _ _ _ _ _ hpl

theorem placeChildrenLoop_some (n : Nat) (data : FamilyTreeData)
    (go : String → ℚ → ℚ → LayoutState → Option (ℚ × LayoutState))
    (hgo_mono : ∀ c cx cy s r, go c cx cy s = some r →
      s.processedPartnerships ⊆ r.2.processedPartnerships)
    (hgo_some : ∀ c cx cy s, kappaMeasure data s.processedPartnerships < n →
      (go c cx cy s).isSome)
    (ptId : String) (mx y cy : ℚ) (spacing : Spacing) :
    ∀ zs cx st, kappaMeasure data st.processedPartnerships < n →
      (placeChildrenLoop go ptId mx y cy spacing zs cx st).isSome := by
  intro zs
  induction zs with
  | nil => intro cx st _; simp [placeChildrenLoop]
  | cons z rest ih =>
    obtain ⟨c, w⟩ := z
    intro cx st hk
    simp only [placeChildrenLoop]
    have h1 := hgo_some c cx cy { st with childConnections := st.childConnections ++
        [⟨ptId, c, ⟨mx, y + spacing.generation / 2⟩, ⟨cx + w / 2, cy⟩⟩] } hk
    cases hg : go c cx cy { st with childConnections := st.childConnections ++
        [⟨ptId, c, ⟨mx, y + spacing.generation / 2⟩, ⟨cx + w / 2, cy⟩⟩] } with
    | none => rw [hg] at h1; cases h1
    | some r1 =>
      obtain ⟨w1, st2⟩ := r1
      have hm := hgo_mono _ _ _ _ _ hg
      exact ih _ _ (lt_of_le_of_lt (kappaMeasure_mono data hm) hk)

theorem placeChildrenLoop_ne_none (n : Nat) (data : FamilyTreeData)
    (go : String → ℚ → ℚ → LayoutState → Option (ℚ × LayoutState))
    (hgo_mono : ∀ c cx cy s r, go c cx cy s = some r →
      s.processedPartnerships ⊆ r.2.processedPartnerships)
    (hgo_some : ∀ c cx cy s, kappaMeasure data s.processedPartnerships < n →
      (go c cx cy s).isSome)
    (ptId : String) (mx y cy : ℚ) (spacing : Spacing) :
    ∀ zs cx st, placeChildrenLoop go ptId mx y cy spacing zs cx st = none →
      ¬ (kappaMeasure data st.processedPartnerships < n) := by
  intro zs cx st heq hk
  have h1 := placeChildrenLoop_some n data go hgo_mono hgo_some ptId mx y cy spacing zs cx st hk
  rw [heq] at h1
  cases h1

theorem punitStep_some (n : Nat) (data : FamilyTreeData)
    (go : String → ℚ → ℚ → LayoutState → Option (ℚ × LayoutState))
    (hgo_mono : ∀ c cx cy s r, go c cx cy s = some r →
      s.processedPartnerships ⊆ r.2.processedPartnerships)
    (hgo_some : ∀ c cx cy s, kappaMeasure data s.processedPartnerships < n →
      (go c cx cy s).isSome)
    (spacing : Spacing) (y : ℚ) (pt : Partnership) (currentX : ℚ) (st : LayoutState)
    (hpt : pt ∈ data.partnerships) (hnew : pt.id ∉ st.processedPartnerships)
    (hk : kappaMeasure data st.processedPartnerships < n + 1) :
    (punitStep go data spacing y pt currentX st).isSome := by
  unfold punitStep
  dsimp only
  have hcs : ∀ c ∈ pt.childIds, c ∈ allChildIds data := fun c hc => mem_allChildIds hpt hc
  have hw := childWidthsLoop_some data spacing st.processedPeople pt.childIds [] 0
    (setAdd st.processedPartnerships pt.id) hcs
  cases hcw : childWidthsLoop data spacing st.processedPeople pt.childIds [] 0
      (setAdd st.processedPartnerships pt.id) with
  | none => rw [hcw] at hw; cases hw
  | some r1 =>
    obtain ⟨childWidths, cw, pp1⟩ := r1
    dsimp only
    have hpp1 : pp1 = setAdd st.processedPartnerships pt.id :=
      childWidthsLoop_frame data spacing _ _ _ _ _ _ hcw
    have hk1 : kappaMeasure data pp1 < n := by
      rw [hpp1]
      have := kappaMeasure_setAdd_lt data hpt hnew
      omega
    split
    · rename_i heq
      exfalso
      split at heq
      · exact placeChildrenLoop_ne_none n data go hgo_mono hgo_some _ _ _ _ _ _ _ _ heq
          (by rw [placePartners_pp]; exact hk1)
      · cases heq
    · rfl

theorem punitLoop_some (n : Nat) (data : FamilyTreeData)
    (go : String → ℚ → ℚ → LayoutState → Option (ℚ × LayoutState))
    (hgo_mono : ∀ c cx cy s r, go c cx cy s = some r →
      s.processedPartnerships ⊆ r.2.processedPartnerships)
    (hgo_some : ∀ c cx cy s, kappaMeasure data s.processedPartnerships < n →
      (go c cx cy s).isSome)
    (spacing : Spacing) (startX y : ℚ) :
    ∀ parts cx tw st, (∀ pt ∈ parts, pt ∈ data.partnerships) →
      kappaMeasure data st.processedPartnerships < n + 1 →
      (punitLoop go data spacing startX y parts cx tw st).isSome := by
  intro parts
  induction parts with
  | nil => intro cx tw st _ _; simp [punitLoop]
  | cons pt rest ih =>
    intro cx tw st hps hk
    by_cases hpp : pt.id ∈ st.processedPartnerships
    · rw [punitLoop, if_pos hpp]
      exact ih _ _ _ (fun q hq => hps q (List.mem_cons_of_mem _ hq)) hk
    · rw [punitLoop, if_neg hpp]
      have hstep := punitStep_some n data go hgo_mono hgo_some spacing y pt cx st
        (hps pt (List.mem_cons_self _ _)) hpp hk
      cases hsp : punitStep go data spacing y pt cx st with
      | none => rw [hsp] at hstep; cases hstep
      | some r1 =>
        obtain ⟨uw, st6⟩ := r1
        dsimp only
        have hm := punitStep_pp_mono go hgo_mono data spacing y pt cx st _ hsp
        exact ih _ _ _ (fun q hq => hps q (List.mem_cons_of_mem _ hq))
          (lt_of_le_of_lt (kappaMeasure_mono data hm) hk)

theorem layoutFamilyUnitF_some :
    ∀ (fuel : Nat) (pid : String) (sx y : ℚ) (data : FamilyTreeData)
      (spacing : Spacing) (st : LayoutState),
      kappaMeasure data st.processedPartnerships < fuel →
      (layoutFamilyUnitF fuel pid sx y data spacing st).isSome := by
  intro fuel
  induction fuel with
  | zero => intro pid sx y data spacing st h; exact absurd h (Nat.not_lt_zero _)
  | succ n ih =>
    intro pid sx y data spacing st hk
    rw [layoutFamilyUnitF_succ]
    by_cases hproc : some pid ∈ st.processedPeople
    · rw [if_pos hproc]; rfl
    · rw [if_neg hproc]
      dsimp only
      by_cases hemp : (getPartnershipsForPerson pid data).isEmpty = true
      · rw [if_pos hemp]; rfl
      · rw [if_neg hemp]
        have hparts : ∀ pt ∈ getPartnershipsForPerson pid data, pt ∈ data.partnerships := by
          intro pt hpt
          exact (List.mem_filter.mp hpt).1
        have hl := punitLoop_some n data
          (fun c cx cy s => layoutFamilyUnitF n c cx cy data spacing s)
          (fun c cx cy s r hr => layoutFamilyUnitF_pp_mono n c cx cy data spacing s r hr)
          (fun c cx cy s hks => ih c cx cy data spacing s hks)
          spacing sx y (getPartnershipsForPerson pid data) sx 0 st hparts hk
        cases hpl : punitLoop (fun c cx cy s => layoutFamilyUnitF n c cx cy data spacing s)
            data spacing sx y (getPartnershipsForPerson pid data) sx 0 st with
        | none => rw [hpl] at hl; cases hl
        | some r1 =>
          obtain ⟨cx1, tw1, st1⟩ := r1
          rfl

theorem rootsLoop_isSome (data : FamilyTreeData) (spacing : Spacing) :
    ∀ roots cx st, (rootsLoop data spacing roots cx st).isSome := by
  intro roots
  induction roots with
  | nil => intro cx st; simp [rootsLoop]
  | cons r rest ih =>
    intro cx st
    by_cases hproc : some r ∈ st.processedPeople
    · rw [rootsLoop, if_pos hproc]
      exact ih _ _
    · rw [rootsLoop, if_neg hproc]
      have hk : kappaMeasure data st.processedPartnerships < layoutFuel data := by
        have := kappaMeasure_le data st.processedPartnerships
        unfold layoutFuel
        omega
      have hs := layoutFamilyUnitF_some (layoutFuel data) r cx 0 data spacing st hk
      cases hl : layoutFamilyUnitF (layoutFuel data) r cx 0 data spacing st with
      | none => rw [hl] at hs; cases hs
      | some r1 =>
        obtain ⟨w, st1⟩ := r1
        dsimp only
        exact ih _ _

theorem layoutPass_isSome (data : FamilyTreeData) (spacing : Spacing) :
    (layoutPass data spacing).isSome := by
  unfold layoutPass
  exact rootsLoop_isSome data spacing _ _ _

theorem calculateLayout_isSome (data : FamilyTreeData) (options : LayoutOptions) :
    (calculateLayout data options).isSome := by
  unfold calculateLayout
  dsimp only
  have h := layoutPass_isSome data (mergeSpacing options.spacing)
  cases hl : layoutPass data (mergeSpacing options.spacing) with
  | none => rw [hl] at h; cases h
  | some st => rfl

/-! ## Session evolution: positions persist, invariants hold -/

theorem evolves_refl (s : LayoutState) : Evolves s s :=
  ⟨fun _ _ h => h, fun _ h => h, fun _ h => h, fun _ h => h, fun _ h => h⟩

theorem evolves_trans {s t u : LayoutState} (h1 : Evolves s t) (h2 : Evolves t u) :
    Evolves s u :=
  ⟨fun k v h => h2.1 k v (h1.1 k v h),
   fun x h => h2.2.1 (h1.2.1 h),
   fun x h => h2.2.2.1 (h1.2.2.1 h),
   fun pc h => h2.2.2.2.1 pc (h1.2.2.2.1 pc h),
   fun cc h => h2.2.2.2.2 cc (h1.2.2.2.2 cc h)⟩

theorem alGet_preserved_alSet_unbound {κ α : Type} [DecidableEq κ] {k : κ}
    {m : List (κ × α)} (hk : alGet k m = none) (v : α) :
    ∀ k1 v1, alGet k1 m = some v1 → alGet k1 (alSet k v m) = some v1 := by
  intro k1 v1 h1
  have hne : k1 ≠ k := by
    rintro rfl
    rw [hk] at h1
    cases h1
  rw [alGet_alSet_ne _ _ hne]
  exact h1

theorem setPos_evolves (k : Option String) (ppos : Point) (st : LayoutState)
    (hk : alGet k st.nodePositions = none) :
    Evolves st { st with nodePositions := alSet k ppos st.nodePositions,
                         processedPeople := setAdd st.processedPeople k } ∧
      (StInv st → StInv { st with nodePositions := alSet k ppos st.nodePositions,
                                  processedPeople := setAdd st.processedPeople k }) := by
  constructor
  · refine ⟨?_, ?_, fun x h => h, fun pc h => h, fun cc h => h⟩
    · intro k1 v1 h1
      exact alGet_preserved_alSet_unbound hk ppos k1 v1 h1
    · exact subset_setAdd _ _
  · intro hinv k1 h1
    dsimp only at h1 ⊢
    rcases (alGet_isSome_alSet k k1 ppos st.nodePositions).mp h1 with rfl | h2
    · exact self_mem_setAdd _ _
    · exact subset_setAdd _ _ (hinv k1 h2)

theorem appendPC_evolves (conn : PartnershipConnection) (st : LayoutState)
    (spacing : Spacing) :
    Evolves st { st with partnershipConnections := st.partnershipConnections ++ [conn] } ∧
      (StInv st → StInv { st with
        partnershipConnections := st.partnershipConnections ++ [conn] }) ∧
      (CCInv spacing st → CCInv spacing { st with
        partnershipConnections := st.partnershipConnections ++ [conn] }) := by
  refine ⟨⟨fun k v h => h, fun x h => h, fun x h => h,
    fun pc h => List.mem_append.mpr (Or.inl h), fun cc h => h⟩,
    fun hinv k h => hinv k h, ?_⟩
  intro hcc cc hmem
  obtain ⟨pc, hpc, h1, h2, h3⟩ := hcc cc hmem
  exact ⟨pc, List.mem_append.mpr (Or.inl hpc), h1, h2, h3⟩

theorem placePartners_spec (spacing : Spacing) (pt : Partnership) (p1X p2X y mX : ℚ)
    (st : LayoutState) (hinv : StInv st) :
    Evolves st (placePartners pt p1X p2X y mX st) ∧
      StInv (placePartners pt p1X p2X y mX st) ∧
      (CCInv spacing st → CCInv spacing (placePartners pt p1X p2X y mX st)) ∧
      (⟨pt.id, pt.partnerIds.1, pt.partnerIds.2, ⟨mX, y⟩⟩ : PartnershipConnection) ∈
        (placePartners pt p1X p2X y mX st).partnershipConnections ∧
      (placePartners pt p1X p2X y mX st).childConnections = st.childConnections := by
  unfold placePartners
  dsimp only
  by_cases h1 : (alGet pt.partnerIds.1 st.nodePositions).isNone
  · rw [if_pos h1]
    have hs1 := setPos_evolves pt.partnerIds.1 ⟨p1X, y⟩ st (Option.isNone_iff_eq_none.mp h1)
    set st3 := { st with nodePositions := alSet pt.partnerIds.1 ⟨p1X, y⟩ st.nodePositions,
                         processedPeople := setAdd st.processedPeople pt.partnerIds.1 }
    by_cases h2 : pt.partnerIds.2 ≠ none ∧ (alGet pt.partnerIds.2 st3.nodePositions).isNone
    · rw [if_pos h2]
      have hs2 := setPos_evolves pt.partnerIds.2 ⟨p2X, y⟩ st3
        (Option.isNone_iff_eq_none.mp h2.2)
      set st4 := { st3 with
        nodePositions := alSet pt.partnerIds.2 ⟨p2X, y⟩ st3.nodePositions,
        processedPeople := setAdd st3.processedPeople pt.partnerIds.2 }
      have hs3 := appendPC_evolves
        ⟨pt.id, pt.partnerIds.1, pt.partnerIds.2, ⟨mX, y⟩⟩ st4 spacing
      refine ⟨evolves_trans (evolves_trans hs1.1 hs2.1) hs3.1,
        hs3.2.1 (hs2.2 (hs1.2 hinv)), fun hc => hs3.2.2 hc,
        List.mem_append.mpr (Or.inr (List.mem_singleton.mpr rfl)), rfl⟩
    · rw [if_neg h2]
      have hs3 := appendPC_evolves
        ⟨pt.id, pt.partnerIds.1, pt.partnerIds.2, ⟨mX, y⟩⟩ st3 spacing
      refine ⟨evolves_trans hs1.1 hs3.1, hs3.2.1 (hs1.2 hinv), fun hc => hs3.2.2 hc,
        List.mem_append.mpr (Or.inr (List.mem_singleton.mpr rfl)), rfl⟩
  · rw [if_neg h1]
    by_cases h2 : pt.partnerIds.2 ≠ none ∧ (alGet pt.partnerIds.2 st.nodePositions).isNone
    · rw [if_pos h2]
      have hs2 := setPos_evolves pt.partnerIds.2 ⟨p2X, y⟩ st
        (Option.isNone_iff_eq_none.mp h2.2)
      set st4 := { st with
        nodePositions := alSet pt.partnerIds.2 ⟨p2X, y⟩ st.nodePositions,
        processedPeople := setAdd st.processedPeople pt.partnerIds.2 }
      have hs3 := appendPC_evolves
        ⟨pt.id, pt.partnerIds.1, pt.partnerIds.2, ⟨mX, y⟩⟩ st4 spacing
      refine ⟨evolves_trans hs2.1 hs3.1, hs3.2.1 (hs2.2 hinv), fun hc => hs3.2.2 hc,
        List.mem_append.mpr (Or.inr (List.mem_singleton.mpr rfl)), rfl⟩
    · rw [if_neg h2]
      have hs3 := appendPC_evolves
        ⟨pt.id, pt.partnerIds.1, pt.partnerIds.2, ⟨mX, y⟩⟩ st spacing
      refine ⟨hs3.1, hs3.2.1 hinv, fun hc => hs3.2.2 hc,
        List.mem_append.mpr (Or.inr (List.mem_singleton.mpr rfl)), rfl⟩

theorem appendCC_evolves (spacing : Spacing) (cc : ChildConnection) (st : LayoutState)
    (hcc : ∃ pc ∈ st.partnershipConnections, pc.partnershipId = cc.partnershipId ∧
      cc.dropPoint = ⟨pc.midpoint.x, pc.midpoint.y + spacing.generation / 2⟩ ∧
      cc.childPoint.y = pc.midpoint.y + spacing.generation) :
    Evolves st { st with childConnections := st.childConnections ++ [cc] } ∧
      (StInv st → StInv { st with childConnections := st.childConnections ++ [cc] }) ∧
      (CCInv spacing st → CCInv spacing
        { st with childConnections := st.childConnections ++ [cc] }) := by
  refine ⟨⟨fun k v h => h, fun x h => h, fun x h => h, fun pc h => h,
    fun c h => List.mem_append.mpr (Or.inl h)⟩, fun hinv k h => hinv k h, ?_⟩
  intro hc c hmem
  rcases List.mem_append.mp hmem with h1 | h2
  · exact hc c h1
  · rw [List.mem_singleton.mp h2]
    exact hcc

theorem placeChildrenLoop_spec
    (go : String → ℚ → ℚ → LayoutState → Option (ℚ × LayoutState))
    (spacing : Spacing)
    (hgo : ∀ c cx cy s r, go c cx cy s = some r → StInv s →
      Evolves s r.2 ∧ StInv r.2 ∧ (CCInv spacing s → CCInv spacing r.2))
    (ptId : String) (mx y : ℚ) :
    ∀ zs cx st st6,
      placeChildrenLoop go ptId mx y (y + spacing.generation) spacing zs cx st = some st6 →
      StInv st →
      (∃ pc ∈ st.partnershipConnections, pc.partnershipId = ptId ∧
        pc.midpoint = (⟨mx, y⟩ : Point)) →
      Evolves st st6 ∧ StInv st6 ∧ (CCInv spacing st → CCInv spacing st6) := by
  intro zs
  induction zs with
  | nil =>
    intro cx st st6 h hinv _
    simp only [placeChildrenLoop] at h
    cases h
    exact ⟨evolves_refl _, hinv, fun hc => hc⟩
  | cons z rest ih =>
    obtain ⟨c, w⟩ := z
    intro cx st st6 h hinv hpc
    simp only [placeChildrenLoop] at h
    obtain ⟨pc0, hpc0, hpcid, hpcmid⟩ := hpc
    have hccfact : ∃ pc ∈ st.partnershipConnections,
        pc.partnershipId = (⟨ptId, c, ⟨mx, y + spacing.generation / 2⟩,
          ⟨cx + w / 2, y + spacing.generation⟩⟩ : ChildConnection).partnershipId ∧
        (⟨ptId, c, ⟨mx, y + spacing.generation / 2⟩,
          ⟨cx + w / 2, y + spacing.generation⟩⟩ : ChildConnection).dropPoint =
          ⟨pc.midpoint.x, pc.midpoint.y + spacing.generation / 2⟩ ∧
        (⟨ptId, c, ⟨mx, y + spacing.generation / 2⟩,
          ⟨cx + w / 2, y + spacing.generation⟩⟩ : ChildConnection).childPoint.y =
          pc.midpoint.y + spacing.generation := by
      refine ⟨pc0, hpc0, hpcid.symm ▸ rfl, ?_, ?_⟩
      · rw [hpcmid]
      · rw [hpcmid]
    have hstep := appendCC_evolves spacing
      ⟨ptId, c, ⟨mx, y + spacing.generation / 2⟩, ⟨cx + w / 2, y + spacing.generation⟩⟩
      st hccfact
    cases hg : go c cx (y + spacing.generation) { st with childConnections :=
        st.childConnections ++ [⟨ptId, c, ⟨mx, y + spacing.generation / 2⟩,
          ⟨cx + w / 2, y + spacing.generation⟩⟩] } with
    | none => rw [hg] at h; cases h
    | some r1 =>
      obtain ⟨w1, st2⟩ := r1
      rw [hg] at h
      dsimp only at h
      have hgs := hgo _ _ _ _ _ hg (hstep.2.1 hinv)
      have hpc2 : ∃ pc ∈ st2.partnershipConnections, pc.partnershipId = ptId ∧
          pc.midpoint = (⟨mx, y⟩ : Point) :=
        ⟨pc0, hgs.1.2.2.2.1 pc0 (hstep.1.2.2.2.1 pc0 hpc0), hpcid, hpcmid⟩
      have hrec := ih _ _ _ h hgs.2.1 hpc2
      refine ⟨evolves_trans hstep.1 (evolves_trans hgs.1 hrec.1), hrec.2.1, ?_⟩
      intro hc
      exact hrec.2.2 (hgs.2.2 (hstep.2.2 hc))

theorem punitStep_spec
    (go : String → ℚ → ℚ → LayoutState → Option (ℚ × LayoutState))
    (spacing : Spacing)
    (hgo : ∀ c cx cy s r, go c cx cy s = some r → StInv s →
      Evolves s r.2 ∧ StInv r.2 ∧ (CCInv spacing s → CCInv spacing r.2))
    (data : FamilyTreeData) (y : ℚ) (pt : Partnership)
    (currentX : ℚ) (st : LayoutState) (r : ℚ × LayoutState)
    (h : punitStep go data spacing y pt currentX st = some r) (hinv : StInv st) :
    Evolves st r.2 ∧ StInv r.2 ∧ (CCInv spacing st → CCInv spacing r.2) := by
  unfold punitStep at h
  dsimp only at h
  split at h
  · cases h
  · rename_i r1 childWidths cw pp1 heq
    have hpp1 : pp1 = setAdd st.processedPartnerships pt.id :=
      childWidthsLoop_frame data spacing _ _ _ _ _ _ heq
    have hev2 : Evolves st { st with processedPartnerships := pp1 } := by
      refine ⟨fun k v hv => hv, fun x hx => hx, ?_, fun pc hp => hp, fun cc hc => hc⟩
      rw [hpp1]
      exact subset_setAdd _ _
    have hinv2 : StInv { st with processedPartnerships := pp1 } := fun k hk => hinv k hk
    have hcc2 : CCInv spacing st → CCInv spacing { st with processedPartnerships := pp1 } :=
      fun hc cc hm => hc cc hm
    have hps := placePartners_spec spacing pt
      ((punitGeometry spacing pt currentX cw).p1X)
      ((punitGeometry spacing pt currentX cw).p2X) y
      ((punitGeometry spacing pt currentX cw).midpointX)
      { st with processedPartnerships := pp1 } hinv2
    try dsimp only at h
    split at h
    · cases h
    · rename_i st6 heq2
      cases h
      split at heq2
      · have hpc : ∃ pc ∈ (placePartners pt
            ((punitGeometry spacing pt currentX cw).p1X)
            ((punitGeometry spacing pt currentX cw).p2X) y
            ((punitGeometry spacing pt currentX cw).midpointX)
            { st with processedPartnerships := pp1 }).partnershipConnections,
            pc.partnershipId = pt.id ∧
            pc.midpoint = (⟨(punitGeometry spacing pt currentX cw).midpointX, y⟩ : Point) :=
          ⟨_, hps.2.2.2.1, rfl, rfl⟩
        have hstep := placeChildrenLoop_spec go spacing hgo pt.id
          ((punitGeometry spacing pt currentX cw).midpointX) y _ _ _ _ heq2
          hps.2.1 hpc
        refine ⟨evolves_trans hev2 (evolves_trans hps.1 hstep.1), hstep.2.1, ?_⟩
        intro hc
        exact hstep.2.2 (hps.2.2.1 (hcc2 hc))
      · cases heq2
        exact ⟨evolves_trans hev2 hps.1, hps.2.1, fun hc => hps.2.2.1 (hcc2 hc)⟩

theorem punitLoop_spec
    (go : String → ℚ → ℚ → LayoutState → Option (ℚ × LayoutState))
    (spacing : Spacing)
    (hgo : ∀ c cx cy s r, go c cx cy s = some r → StInv s →
      Evolves s r.2 ∧ StInv r.2 ∧ (CCInv spacing s → CCInv spacing r.2))
    (data : FamilyTreeData) (startX y : ℚ) :
    ∀ parts cx tw st r, punitLoop go data spacing startX y parts cx tw st = some r →
      StInv st →
      Evolves st r.2.2 ∧ StInv r.2.2 ∧ (CCInv spacing st → CCInv spacing r.2.2) := by
  intro parts
  induction parts with
  | nil =>
    intro cx tw st r h hinv
    simp only [punitLoop] at h
    cases h
    exact ⟨evolves_refl _, hinv, fun hc => hc⟩
  | cons pt rest ih =>
    intro cx tw st r h hinv
    by_cases hpp : pt.id ∈ st.processedPartnerships
    · rw [punitLoop, if_pos hpp] at h
      exact ih _ _ _ _ h hinv
    · rw [punitLoop, if_neg hpp] at h
      cases hstep : punitStep go data spacing y pt cx st with
      | none => rw [hstep] at h; cases h
      | some r1 =>
        obtain ⟨uw, st6⟩ := r1
        rw [hstep] at h
        dsimp only at h
        have h1 := punitStep_spec go spacing hgo data y pt cx st _ hstep hinv
        have h2 := ih _ _ _ _ h h1.2.1
        exact ⟨evolves_trans h1.1 h2.1, h2.2.1, fun hc => h2.2.2 (h1.2.2 hc)⟩

theorem layoutFamilyUnitF_spec :
    ∀ (fuel : Nat) (pid : String) (sx y : ℚ) (data : FamilyTreeData)
      (spacing : Spacing) (st : LayoutState) r,
      layoutFamilyUnitF fuel pid sx y data spacing st = some r → StInv st →
        Evolves st r.2 ∧ StInv r.2 ∧ (CCInv spacing st → CCInv spacing r.2) := by
  intro fuel
  induction fuel with
  | zero => intro pid sx y data spacing st r h _; simp [layoutFamilyUnitF] at h
  | succ n ih =>
    intro pid sx y data spacing st r h hinv
    rw [layoutFamilyUnitF_succ] at h
    by_cases hproc : some pid ∈ st.processedPeople
    · rw [if_pos hproc] at h
      cases h
      exact ⟨evolves_refl _, hinv, fun hc => hc⟩
    · rw [if_neg hproc] at h
      dsimp only at h
      by_cases hemp : (getPartnershipsForPerson pid data).isEmpty = true
      · rw [if_pos hemp] at h
        cases h
        have hnone : alGet (some pid) st.nodePositions = none := by
          cases hg : alGet (some pid) st.nodePositions with
          | none => rfl
          | some v =>
            exfalso
            exact hproc (hinv (some pid) (by rw [hg]; rfl))
        have hs := setPos_evolves (some pid) ⟨sx, y⟩ st hnone
        exact ⟨hs.1, hs.2 hinv, fun hc cc hm => by
          obtain ⟨pc, hpc, h1, h2, h3⟩ := hc cc hm
          exact ⟨pc, hpc, h1, h2, h3⟩⟩
      · rw [if_neg hemp] at h
        cases hpl : punitLoop (fun c cx cy s => layoutFamilyUnitF n c cx cy data spacing s)
            data spacing sx y (getPartnershipsForPerson pid data) sx 0 st with
        | none => rw [hpl] at h; cases h
        | some r1 =>
          obtain ⟨cx1, tw1, st1⟩ := r1
          rw [hpl] at h
          dsimp only at h
          cases h
          exact punitLoop_spec _ spacing
            (fun c cx cy s r2 hr2 hs => ih c cx cy data spacing s r2 hr2 hs)
            data sx y _ _ _ _ _ hpl hinv

theorem rootsLoop_spec (data : FamilyTreeData) (spacing : Spacing) :
    ∀ roots cx st st1, rootsLoop data spacing roots cx st = some st1 → StInv st →
      Evolves st st1 ∧ StInv st1 ∧ (CCInv spacing st → CCInv spacing st1) := by
  intro roots
  induction roots with
  | nil =>
    intro cx st st1 h hinv
    simp only [rootsLoop] at h
    cases h
    exact ⟨evolves_refl _, hinv, fun hc => hc⟩
  | cons r rest ih =>
    intro cx st st1 h hinv
    by_cases hproc : some r ∈ st.processedPeople
    · rw [rootsLoop, if_pos hproc] at h
      exact ih _ _ _ h hinv
    · rw [rootsLoop, if_neg hproc] at h
      cases hl : layoutFamilyUnitF (layoutFuel data) r cx 0 data spacing st with
      | none => rw [hl] at h; cases h
      | some r1 =>
        obtain ⟨w, st2⟩ := r1
        rw [hl] at h
        dsimp only at h
        have h1 := layoutFamilyUnitF_spec (layoutFuel data) r cx 0 data spacing st _ hl hinv
        have h2 := ih _ _ _ h h1.2.1
        exact ⟨evolves_trans h1.1 h2.1, h2.2.1, fun hc => h2.2.2 (h1.2.2 hc)⟩

theorem layoutPass_CCInv (data : FamilyTreeData) (spacing : Spacing) (st : LayoutState)
    (h : layoutPass data spacing = some st) : CCInv spacing st := by
  unfold layoutPass at h
  have h1 := rootsLoop_spec data spacing _ _ _ _ h
    (fun k hk => by simp [initState, alGet] at hk)
  refine h1.2.2 ?_
  intro cc hm
  simp [initState] at hm

/-! ## Partner placement geometry -/

theorem placePartners_both_new {pt : Partnership} {a b : String}
    (hp1 : pt.partnerIds.1 = some a) (hp2 : pt.partnerIds.2 = some b) (hab : a ≠ b)
    (p1X p2X y mX : ℚ) (st : LayoutState)
    (ha : alGet (some a) st.nodePositions = none)
    (hb : alGet (some b) st.nodePositions = none) :
    alGet (some a) (placePartners pt p1X p2X y mX st).nodePositions = some ⟨p1X, y⟩ ∧
    alGet (some b) (placePartners pt p1X p2X y mX st).nodePositions = some ⟨p2X, y⟩ := by
  have hne : (some b : Option String) ≠ some a := by
    intro hc
    exact hab (Option.some_injective _ hc).symm
  unfold placePartners
  rw [hp1, hp2]
  dsimp only
  have h1 : (alGet (some a) st.nodePositions).isNone = true := by
    rw [ha]
    rfl
  rw [if_pos h1]
  dsimp only
  have h2 : (some b : Option String) ≠ none ∧
      (alGet (some b) (alSet (some a) (⟨p1X, y⟩ : Point) st.nodePositions)).isNone = true := by
    refine ⟨by simp, ?_⟩
    rw [alGet_alSet_ne _ _ hne, hb]
    rfl
  rw [if_pos h2]
  dsimp only
  constructor
  · rw [alGet_alSet_ne _ _ (Ne.symm hne), alGet_alSet_self]
  · rw [alGet_alSet_self]

theorem punitGeometry_partner_gap (spacing : Spacing) (pt : Partnership)
    (currentX cw : ℚ) (hp2 : pt.partnerIds.2 ≠ none) :
    (punitGeometry spacing pt currentX cw).p2X =
      (punitGeometry spacing pt currentX cw).p1X + spacing.partners := by
  unfold punitGeometry
  dsimp only
  rw [if_pos hp2]
  ring

/-- Partner placement inside one partnership unit: when neither partner of
a two-partner partnership has a recorded position, both are placed at the
same generation coordinate, exactly the partner gap apart, and these
positions survive to the end of the step. -/
theorem punitStep_partner_slots (n : Nat) (data : FamilyTreeData) (spacing : Spacing)
    (y : ℚ) (pt : Partnership) (currentX : ℚ) (st : LayoutState) (r : ℚ × LayoutState)
    (h : punitStep (fun c cx cy s => layoutFamilyUnitF n c cx cy data spacing s)
      data spacing y pt currentX st = some r)
    (hinv : StInv st) {a b : String}
    (hp1 : pt.partnerIds.1 = some a) (hp2 : pt.partnerIds.2 = some b) (hab : a ≠ b)
    (ha : alGet (some a) st.nodePositions = none)
    (hb : alGet (some b) st.nodePositions = none) :
    ∃ xa : ℚ, alGet (some a) r.2.nodePositions = some ⟨xa, y⟩ ∧
      alGet (some b) r.2.nodePositions = some ⟨xa + spacing.partners, y⟩ := by
  unfold punitStep at h
  dsimp only at h
  split at h
  · cases h
  · rename_i r1 childWidths cw pp1 heq
    have hboth := placePartners_both_new hp1 hp2 hab
      ((punitGeometry spacing pt currentX cw).p1X)
      ((punitGeometry spacing pt currentX cw).p2X) y
      ((punitGeometry spacing pt currentX cw).midpointX)
      { st with processedPartnerships := pp1 } ha hb
    have hinv2 : StInv { st with processedPartnerships := pp1 } := fun k hk => hinv k hk
    have hps := placePartners_spec spacing pt
      ((punitGeometry spacing pt currentX cw).p1X)
      ((punitGeometry spacing pt currentX cw).p2X) y
      ((punitGeometry spacing pt currentX cw).midpointX)
      { st with processedPartnerships := pp1 } hinv2
    have hp2ne : pt.partnerIds.2 ≠ none := by
      rw [hp2]
      simp
    have hgap := punitGeometry_partner_gap spacing pt currentX cw hp2ne
    try dsimp only at h
    split at h
    · cases h
    · rename_i st6 heq2
      cases h
      refine ⟨(punitGeometry spacing pt currentX cw).p1X, ?_⟩
      split at heq2
      · have hpc : ∃ pc ∈ (placePartners pt
            ((punitGeometry spacing pt currentX cw).p1X)
            ((punitGeometry spacing pt currentX cw).p2X) y
            ((punitGeometry spacing pt currentX cw).midpointX)
            { st with processedPartnerships := pp1 }).partnershipConnections,
            pc.partnershipId = pt.id ∧
            pc.midpoint = (⟨(punitGeometry spacing pt currentX cw).midpointX, y⟩ : Point) :=
          ⟨_, hps.2.2.2.1, rfl, rfl⟩
        have hstep := placeChildrenLoop_spec _ spacing
          (fun c cx cy s r2 hr2 hs => layoutFamilyUnitF_spec n c cx cy data spacing s r2 hr2 hs)
          pt.id ((punitGeometry spacing pt currentX cw).midpointX) y _ _ _ _ heq2
          hps.2.1 hpc
        rw [← hgap]
        exact ⟨hstep.1.1 _ _ hboth.1, hstep.1.1 _ _ hboth.2⟩
      · cases heq2
        rw [← hgap]
        exact ⟨hboth.1, hboth.2⟩

/-! ## Childless sibling placement -/

theorem calcSubtreeWidthF_childless (fuel : Nat) (pid : String) (data : FamilyTreeData)
    (spacing : Spacing) (pp : List String) (vis : List (Option String))
    (hch : getPartnershipsForPerson pid data = []) :
    ∃ vis1, calcSubtreeWidthF (fuel + 1) pid data spacing pp vis = some (0, pp, vis1) := by
  rw [calcSubtreeWidthF_succ]
  by_cases hv : some pid ∈ vis
  · rw [if_pos hv]
    exact ⟨vis, rfl⟩
  · rw [if_neg hv]
    dsimp only
    rw [if_pos (by rw [hch]; rfl)]
    exact ⟨setAdd vis (some pid), rfl⟩

theorem childWidthsLoop_childless (data : FamilyTreeData) (spacing : Spacing)
    (procPeople : List (Option String)) :
    ∀ (cs : List String) (ws : List ℚ) (total : ℚ) (pp : List String),
      (∀ c ∈ cs, getPartnershipsForPerson c data = []) →
      childWidthsLoop data spacing procPeople cs ws total pp =
        some (ws ++ List.replicate cs.length 0, total, pp) := by
  intro cs
  induction cs with
  | nil =>
    intro ws total pp _
    simp [childWidthsLoop]
  | cons c rest ih =>
    intro ws total pp hch
    have hwf : widthFuel data = (widthFuel data - 1) + 1 := by
      unfold widthFuel
      omega
    obtain ⟨vis1, hcalc⟩ := calcSubtreeWidthF_childless (widthFuel data - 1) c data spacing
      pp procPeople (hch c (List.mem_cons_self _ _))
    rw [← hwf] at hcalc
    simp only [childWidthsLoop, hcalc]
    rw [ih (ws ++ [0]) (total + 0) pp (fun x hx => hch x (List.mem_cons_of_mem _ hx))]
    rw [add_zero]
    congr 1
    rw [List.append_assoc]
    rfl

theorem placeChildrenLoop_childless (n : Nat) (data : FamilyTreeData) (spacing : Spacing)
    (ptId : String) (mx y : ℚ) :
    ∀ (cs : List String) (cx : ℚ) (st st6 : LayoutState),
      placeChildrenLoop (fun c cx2 cy s => layoutFamilyUnitF (n + 1) c cx2 cy data spacing s)
        ptId mx y (y + spacing.generation) spacing
        (cs.zip (List.replicate cs.length 0)) cx st = some st6 →
      (∀ c ∈ cs, getPartnershipsForPerson c data = []) →
      cs.Nodup →
      (∀ c ∈ cs, some c ∉ st.processedPeople) →
      (∀ c ∈ cs, alGet (some c) st.nodePositions = none) →
      (∀ k v, alGet k st.nodePositions = some v → alGet k st6.nodePositions = some v) ∧
      ∀ i (hi : i < cs.length),
        alGet (some (cs.get ⟨i, hi⟩)) st6.nodePositions =
          some ⟨cx + i * spacing.siblings, y + spacing.generation⟩ := by
  intro cs
  induction cs with
  | nil =>
    intro cx st st6 h _ _ _ _
    simp only [List.length_nil, List.replicate, List.zip_nil_right, placeChildrenLoop] at h
    cases h
    exact ⟨fun k v hv => hv, fun i hi => absurd hi (Nat.not_lt_zero _)⟩
  | cons c rest ih =>
    intro cx st st6 h hch hnd hup hun
    rw [List.length_cons, List.replicate_succ, List.zip_cons_cons] at h
    simp only [placeChildrenLoop] at h
    set st1 := { st with childConnections := st.childConnections ++
      [(⟨ptId, c, ⟨mx, y + spacing.generation / 2⟩,
        ⟨cx + 0 / 2, y + spacing.generation⟩⟩ : ChildConnection)] } with hst1
    have hgo : layoutFamilyUnitF (n + 1) c cx (y + spacing.generation) data spacing st1 =
        some (0, { st1 with
          nodePositions := alSet (some c) ⟨cx, y + spacing.generation⟩ st1.nodePositions,
          processedPeople := setAdd st1.processedPeople (some c) }) := by
      rw [layoutFamilyUnitF_succ]
      rw [if_neg (hup c (List.mem_cons_self _ _))]
      dsimp only
      rw [if_pos (by rw [hch c (List.mem_cons_self _ _)]; rfl)]
    rw [hgo] at h
    dsimp only at h
    have hndr : rest.Nodup := (List.nodup_cons.mp hnd).2
    have hcnr : c ∉ rest := (List.nodup_cons.mp hnd).1
    have hrec := ih (cx + 0 + spacing.siblings) _ _ h
      (fun x hx => hch x (List.mem_cons_of_mem _ hx)) hndr
      (by
        intro x hx
        dsimp only
        rw [mem_setAdd]
        rintro (hmem | heq)
        · exact hup x (List.mem_cons_of_mem _ hx) hmem
        · exact hcnr (by
            have : x = c := Option.some_injective _ heq
            rw [← this]
            exact hx))
      (by
        intro x hx
        dsimp only
        rw [alGet_alSet_ne]
        · exact hun x (List.mem_cons_of_mem _ hx)
        · intro hc
          have : x = c := Option.some_injective _ hc
          exact hcnr (this ▸ hx))
    have hcpos : alGet (some c) st6.nodePositions =
        some ⟨cx, y + spacing.generation⟩ := by
      apply hrec.1
      dsimp only
      rw [alGet_alSet_self]
    refine ⟨?_, ?_⟩
    · intro k v hv
      apply hrec.1
      dsimp only
      apply alGet_preserved_alSet_unbound (hun c (List.mem_cons_self _ _)) _ k v hv
    · intro i hi
      cases i with
      | zero =>
        simp only [List.get]
        rw [hcpos]
        congr 2
        ring
      | succ j =>
        have hj : j < rest.length := by
          simp only [List.length_cons] at hi
          omega
        have := hrec.2 j hj
        simp only [List.get]
        rw [this]
        congr 2
        push_cast
        ring

theorem placePartners_people_sub (pt : Partnership) (p1X p2X y mX : ℚ) (st : LayoutState) :
    ∀ x, x ∈ (placePartners pt p1X p2X y mX st).processedPeople →
      x ∈ st.processedPeople ∨ x = pt.partnerIds.1 ∨ x = pt.partnerIds.2 := by
  unfold placePartners
  dsimp only
  split
  · split
    · intro x hx
      dsimp only at hx
      rcases (mem_setAdd _ _ _).mp hx with hx1 | hx1
      · rcases (mem_setAdd _ _ _).mp hx1 with hx2 | hx2
        · exact Or.inl hx2
        · exact Or.inr (Or.inl hx2)
      · exact Or.inr (Or.inr hx1)
    · intro x hx
      dsimp only at hx
      rcases (mem_setAdd _ _ _).mp hx with hx1 | hx1
      · exact Or.inl hx1
      · exact Or.inr (Or.inl hx1)
  · split
    · intro x hx
      dsimp only at hx
      rcases (mem_setAdd _ _ _).mp hx with hx1 | hx1
      · exact Or.inl hx1
      · exact Or.inr (Or.inr hx1)
    · intro x hx
      exact Or.inl hx

theorem placePartners_pos_other (pt : Partnership) (p1X p2X y mX : ℚ) (st : LayoutState)
    {k : Option String} (h1 : k ≠ pt.partnerIds.1) (h2 : k ≠ pt.partnerIds.2) :
    alGet k (placePartners pt p1X p2X y mX st).nodePositions =
      alGet k st.nodePositions := by
  unfold placePartners
  dsimp only
  split
  · split
    · dsimp only
      rw [alGet_alSet_ne _ _ h2, alGet_alSet_ne _ _ h1]
    · dsimp only
      rw [alGet_alSet_ne _ _ h1]
  · split
    · dsimp only
      rw [alGet_alSet_ne _ _ h2]
    · rfl

/-- Childless sibling placement inside one partnership unit: when every
child of the partnership has no partnership of its own and none of them
was placed or processed before, the children end up one generation below
the parents, spaced exactly the sibling gap apart. -/
theorem punitStep_childless_siblings (n : Nat) (data : FamilyTreeData) (spacing : Spacing)
    (y : ℚ) (pt : Partnership) (currentX : ℚ) (st : LayoutState) (r : ℚ × LayoutState)
    (h : punitStep (fun c cx cy s => layoutFamilyUnitF (n + 1) c cx cy data spacing s)
      data spacing y pt currentX st = some r)
    (hch : ∀ c ∈ pt.childIds, getPartnershipsForPerson c data = [])
    (hnd : pt.childIds.Nodup)
    (hup : ∀ c ∈ pt.childIds, some c ∉ st.processedPeople)
    (hun : ∀ c ∈ pt.childIds, alGet (some c) st.nodePositions = none)
    (hnp : ∀ c ∈ pt.childIds, some c ≠ pt.partnerIds.1 ∧ some c ≠ pt.partnerIds.2) :
    ∀ i (hi : i < pt.childIds.length),
      alGet (some (pt.childIds.get ⟨i, hi⟩)) r.2.nodePositions =
        some ⟨(punitGeometry spacing pt currentX 0).childX0 + i * spacing.siblings,
          y + spacing.generation⟩ := by
  unfold punitStep at h
  dsimp only at h
  rw [childWidthsLoop_childless data spacing st.processedPeople pt.childIds [] 0
    (setAdd st.processedPartnerships pt.id) hch] at h
  dsimp only at h
  rw [List.nil_append] at h
  split at h
  · cases h
  · rename_i st6 heq2
    cases h
    split at heq2
    · rename_i hlen
      have hres := placeChildrenLoop_childless n data spacing pt.id
        ((punitGeometry spacing pt currentX 0).midpointX) y pt.childIds
        ((punitGeometry spacing pt currentX 0).childX0) _ _ heq2 hch hnd
        (by
          intro c hc hmem
          rcases placePartners_people_sub pt _ _ y _ _ _ hmem with hx | hx | hx
          · exact hup c hc hx
          · exact (hnp c hc).1 hx
          · exact (hnp c hc).2 hx)
        (by
          intro c hc
          rw [placePartners_pos_other pt _ _ y _ _ (hnp c hc).1 (hnp c hc).2]
          exact hun c hc)
      exact hres.2
    · rename_i hlen
      intro i hi
      exfalso
      exact hlen (Nat.lt_of_le_of_lt (Nat.zero_le i) hi)

end FamTree
namespace FamTree

/-! ## Claim theorems -/

/-- C1: validateFamilyTreeData returns normally exactly when every
section 3 invariant holds: person and partnership ids non-blank and unique
within their kind, every partnership with at least one non-null partner,
every partner reference, child reference and the optional root reference
resolving to a person of the input, and no person their own ancestor under
the parent relation induced by partnerships; on any other input it returns
an error. -/
theorem C1_validator_iff (data : FamilyTreeData) :
    validateFamilyTreeData data = .ok () ↔ SpecValid data :=
  validate_ok_iff_spec data

/-- C2: on every validator-accepted graph, calculateLayout returns a
layout whose node list carries exactly the input person ids, in input
order and without duplicates: a bijection between people and nodes. -/
theorem C2_node_bijection (data : FamilyTreeData) (options : LayoutOptions)
    (h : validateFamilyTreeData data = .ok ()) :
    ∃ res, calculateLayout data options = some res ∧
      res.nodes.map (fun n => n.id) = peopleIds data ∧ (peopleIds data).Nodup := by
  have hnd : (peopleIds data).Nodup := ((validate_ok_iff_spec data).mp h).2.1
  unfold calculateLayout
  dsimp only
  cases hl : layoutPass data (mergeSpacing options.spacing) with
  | none =>
    have h2 := layoutPass_isSome data (mergeSpacing options.spacing)
    rw [hl] at h2
    cases h2
  | some st =>
    exact ⟨_, rfl, by rw [transformLayout_nodes_map_id, nodesOf_map_id], hnd⟩

theorem C2_witness :
    validateFamilyTreeData exSimple = .ok () ∧
    ∃ res, calculateLayout exSimple exOptions = some res ∧
      res.nodes.map (fun n => n.id) = peopleIds exSimple ∧ (peopleIds exSimple).Nodup :=
  ⟨rfl, C2_node_bijection exSimple exOptions rfl⟩

/-- C3 counterexample: exLate passes validation and its partnership P3
joins D and B, yet in the computed layout D and B sit at different
generation coordinates, because B was already placed by the earlier
partnership P2 and keeps that position. -/
theorem C3_counterexample :
    validateFamilyTreeData exLate = .ok () ∧
    (⟨"P3", (some "D", some "B"), []⟩ : Partnership) ∈ exLate.partnerships ∧
    ∃ res, calculateLayout exLate exOptions = some res ∧
      ∃ nD ∈ res.nodes, ∃ nB ∈ res.nodes,
        nD.id = "D" ∧ nB.id = "B" ∧ nD.y ≠ nB.y := by
  refine ⟨rfl, by decide,
    ⟨[⟨"R", 15, 0⟩, ⟨"C", 0, 100⟩, ⟨"B", 30, 100⟩, ⟨"D", 0, 200⟩],
     [⟨"P1", some "R", none, ⟨15, 0⟩⟩, ⟨"P2", some "C", some "B", ⟨15, 100⟩⟩,
      ⟨"P3", some "D", some "B", ⟨15, 200⟩⟩],
     [⟨"P1", "C", ⟨15, 50⟩, ⟨15, 100⟩⟩, ⟨"P2", "D", ⟨15, 150⟩, ⟨15, 200⟩⟩],
     .topDown⟩, ?_, ?_⟩
  · with_unfolding_all rfl
  · with_unfolding_all decide

/-- C3 amended: when neither partner of a two-partner partnership has a
recorded position yet, processing that partnership unit places both at the
same generation coordinate exactly the configured partner gap apart, and
those positions are still recorded when the unit finishes.  The universal
form of the claim fails because a partner placed earlier by another unit
keeps its old position. -/
theorem C3_partner_gap (n : Nat) (data : FamilyTreeData) (spacing : Spacing)
    (y : ℚ) (pt : Partnership) (currentX : ℚ) (st : LayoutState) (r : ℚ × LayoutState)
    (h : punitStep (fun c cx cy s => layoutFamilyUnitF n c cx cy data spacing s)
      data spacing y pt currentX st = some r)
    (hinv : StInv st) {a b : String}
    (hp1 : pt.partnerIds.1 = some a) (hp2 : pt.partnerIds.2 = some b) (hab : a ≠ b)
    (ha : alGet (some a) st.nodePositions = none)
    (hb : alGet (some b) st.nodePositions = none) :
    ∃ xa : ℚ, alGet (some a) r.2.nodePositions = some ⟨xa, y⟩ ∧
      alGet (some b) r.2.nodePositions = some ⟨xa + spacing.partners, y⟩ :=
  punitStep_partner_slots n data spacing y pt currentX st r h hinv hp1 hp2 hab ha hb

theorem C3_witness :
    ∃ r, punitStep (fun c cx cy s => layoutFamilyUnitF 3 c cx cy exSimple exSp s)
        exSimple exSp 0 exPt1 0 initState = some r ∧
      ∃ xa : ℚ, alGet (some "p1") r.2.nodePositions = some ⟨xa, 0⟩ ∧
        alGet (some "p2") r.2.nodePositions = some ⟨xa + exSp.partners, 0⟩ := by
  have h : punitStep (fun c cx cy s => layoutFamilyUnitF 3 c cx cy exSimple exSp s)
      exSimple exSp 0 exPt1 0 initState = some punitSimpleRes := by
    with_unfolding_all rfl
  exact ⟨punitSimpleRes, h,
    C3_partner_gap 3 exSimple exSp 0 exPt1 0 initState punitSimpleRes h
      (fun k hk => by simp [initState, alGet] at hk) rfl rfl (by decide) rfl rfl⟩

/-- C4 counterexample: exWide passes validation, yet the two adjacent
siblings c1 and c2 of partnership u1 end up 80 apart instead of the
configured sibling gap of 50, because the separation also accounts for the
subtree width of c1, who has a partnership of their own. -/
theorem C4_counterexample :
    validateFamilyTreeData exWide = .ok () ∧
    ∃ res, calculateLayout exWide exOptions = some res ∧
      ∃ n1 ∈ res.nodes, ∃ n2 ∈ res.nodes,
        n1.id = "c1" ∧ n2.id = "c2" ∧ n1.y = n2.y ∧ n2.x - n1.x ≠ exSp.siblings := by
  refine ⟨rfl,
    ⟨[⟨"p1", 25, 0⟩, ⟨"p2", 55, 0⟩, ⟨"c1", 0, 100⟩, ⟨"c2", 80, 100⟩, ⟨"s1", 30, 100⟩],
     [⟨"u1", some "p1", some "p2", ⟨40, 0⟩⟩, ⟨"u2", some "c1", some "s1", ⟨15, 100⟩⟩],
     [⟨"u1", "c1", ⟨40, 50⟩, ⟨15, 100⟩⟩, ⟨"u1", "c2", ⟨40, 50⟩, ⟨80, 100⟩⟩],
     .topDown⟩, ?_, ?_⟩
  · with_unfolding_all rfl
  · with_unfolding_all decide

/-- C4 amended: when every child of the partnership is childless and none
was placed before, the children share the generation coordinate one
generation below the parents and consecutive siblings are exactly the
configured sibling gap apart.  The universal form of the claim fails
because a child with a partnership of its own widens the separation by its
subtree width. -/
theorem C4_sibling_gap (n : Nat) (data : FamilyTreeData) (spacing : Spacing)
    (y : ℚ) (pt : Partnership) (currentX : ℚ) (st : LayoutState) (r : ℚ × LayoutState)
    (h : punitStep (fun c cx cy s => layoutFamilyUnitF (n + 1) c cx cy data spacing s)
      data spacing y pt currentX st = some r)
    (hch : ∀ c ∈ pt.childIds, getPartnershipsForPerson c data = [])
    (hnd : pt.childIds.Nodup)
    (hup : ∀ c ∈ pt.childIds, some c ∉ st.processedPeople)
    (hun : ∀ c ∈ pt.childIds, alGet (some c) st.nodePositions = none)
    (hnp : ∀ c ∈ pt.childIds, some c ≠ pt.partnerIds.1 ∧ some c ≠ pt.partnerIds.2) :
    ∀ i (hi : i < pt.childIds.length),
      alGet (some (pt.childIds.get ⟨i, hi⟩)) r.2.nodePositions =
        some ⟨(punitGeometry spacing pt currentX 0).childX0 + i * spacing.siblings,
          y + spacing.generation⟩ :=
  punitStep_childless_siblings n data spacing y pt currentX st r h hch hnd hup hun hnp

theorem C4_witness :
    ∃ r, punitStep (fun c cx cy s => layoutFamilyUnitF 3 c cx cy exTwo exSp s)
        exTwo exSp 0 exU1 0 initState = some r ∧
      ∀ i (hi : i < exU1.childIds.length),
        alGet (some (exU1.childIds.get ⟨i, hi⟩)) r.2.nodePositions =
          some ⟨(punitGeometry exSp exU1 0 0).childX0 + i * exSp.siblings,
            0 + exSp.generation⟩ := by
  have h : punitStep (fun c cx cy s => layoutFamilyUnitF 3 c cx cy exTwo exSp s)
      exTwo exSp 0 exU1 0 initState = some punitTwoRes := by
    with_unfolding_all rfl
  exact ⟨punitTwoRes, h,
    C4_sibling_gap 2 exTwo exSp 0 exU1 0 initState punitTwoRes h
      (by decide) (by decide) (by decide) (by decide) (by decide)⟩

/-- C5 counterexample: exGrand passes validation, yet the child connection
of p1 has a child point different from the final node position of p1: the
child point is the centre of the child subtree slot. -/
theorem C5_counterexample :
    validateFamilyTreeData exGrand = .ok () ∧
    ∃ res, calculateLayout exGrand exOptions = some res ∧
      ∃ cc ∈ res.childConnections, ∃ nd ∈ res.nodes,
        cc.childId = "p1" ∧ nd.id = "p1" ∧ cc.childPoint ≠ (⟨nd.x, nd.y⟩ : Point) := by
  refine ⟨rfl,
    ⟨[⟨"gp1", 0, 0⟩, ⟨"gp2", 30, 0⟩, ⟨"p1", 0, 100⟩, ⟨"p2", 30, 100⟩, ⟨"c1", 15, 200⟩],
     [⟨"u1", some "gp1", some "gp2", ⟨15, 0⟩⟩, ⟨"u2", some "p1", some "p2", ⟨15, 100⟩⟩],
     [⟨"u1", "p1", ⟨15, 50⟩, ⟨15, 100⟩⟩, ⟨"u2", "c1", ⟨15, 150⟩, ⟨15, 200⟩⟩],
     .topDown⟩, ?_, ?_⟩
  · with_unfolding_all rfl
  · with_unfolding_all decide

/-- C5 amended: every child connection recorded by the placement pass
points back to a partnership connection with the same partnership id, has
its drop point at the midpoint x and half a generation below the parents,
and has its child point one full generation below the parents.  The claim
that the child point equals the final node position of the child fails:
its x is the centre of the child subtree slot. -/
theorem C5_child_connections (data : FamilyTreeData) (spacing : Spacing)
    (st : LayoutState) (h : layoutPass data spacing = some st) :
    ∀ cc ∈ st.childConnections, ∃ pc ∈ st.partnershipConnections,
      pc.partnershipId = cc.partnershipId ∧
      cc.dropPoint = ⟨pc.midpoint.x, pc.midpoint.y + spacing.generation / 2⟩ ∧
      cc.childPoint.y = pc.midpoint.y + spacing.generation :=
  layoutPass_CCInv data spacing st h

theorem C5_witness :
    ∃ st, layoutPass exGrand exSp = some st ∧
      ∀ cc ∈ st.childConnections, ∃ pc ∈ st.partnershipConnections,
        pc.partnershipId = cc.partnershipId ∧
        cc.dropPoint = ⟨pc.midpoint.x, pc.midpoint.y + exSp.generation / 2⟩ ∧
        cc.childPoint.y = pc.midpoint.y + exSp.generation := by
  have h : layoutPass exGrand exSp = some exGrandSt := by with_unfolding_all rfl
  exact ⟨exGrandSt, h, C5_child_connections exGrand exSp exGrandSt h⟩

/-- C6: the orientation transform applies one fixed point map — identity
for top-down, (x, y) to (x, -y) for bottom-up, (x, y) to (y, x) for
left-right, (x, y) to (-y, x) for right-left — uniformly to every node
coordinate, every partnership midpoint and both points of every child
connection, and keeps every non-point field. -/
theorem C6_orientation_maps (nodes : List LayoutNode)
    (pcs : List PartnershipConnection) (ccs : List ChildConnection) (o : Orientation) :
    transformLayout nodes pcs ccs o =
      ⟨nodes.map (fun n =>
          ⟨n.id, (fixedMap o ⟨n.x, n.y⟩).x, (fixedMap o ⟨n.x, n.y⟩).y⟩),
       pcs.map (fun c => { c with midpoint := fixedMap o c.midpoint }),
       ccs.map (fun c => { c with dropPoint := fixedMap o c.dropPoint,
                                  childPoint := fixedMap o c.childPoint }),
       o⟩ :=
  transformLayout_eq_fixedMap nodes pcs ccs o

/-- C7 counterexample: exOrder carries both a dangling child reference in
its first partnership and a duplicated partnership id further down, and
the validator reports the dangling child of the earlier partnership, not
the duplicate id: the check order is per partnership, not global by
defect kind. -/
theorem C7_counterexample :
    ¬ (exOrder.partnerships.map (fun pt => pt.id)).Nodup ∧
    validateFamilyTreeData exOrder =
      .error "Partnership u1 references non-existent child: ghost" :=
  ⟨by decide, rfl⟩

/-- C7 amended: the partnership checks run partnership by partnership in
input order, each against the partnership ids accumulated so far, so the
error of the first locally failing partnership is the one reported,
whatever defects later partnerships carry. -/
theorem C7_first_error (personIds : List String) (pre : List Partnership)
    (pt : Partnership) (rest : List Partnership) (pids pids1 : List String)
    (e : String)
    (hok : validatePartnerships personIds pre pids = .ok pids1)
    (hc : partnershipCheck personIds pids1 pt = .error e) :
    validatePartnerships personIds (pre ++ pt :: rest) pids = .error e :=
  validatePartnerships_error_first personIds pre pt rest pids pids1 e hok hc

theorem C7_witness :
    validatePartnerships ["a"]
      ([] ++ (⟨"u1", (some "a", none), ["ghost"]⟩ : Partnership) ::
        [⟨"u2", (some "a", none), []⟩, ⟨"u2", (some "a", none), []⟩]) [] =
      .error "Partnership u1 references non-existent child: ghost" :=
  C7_first_error ["a"] [] ⟨"u1", (some "a", none), ["ghost"]⟩
    [⟨"u2", (some "a", none), []⟩, ⟨"u2", (some "a", none), []⟩] [] []
    "Partnership u1 references non-existent child: ghost" rfl rfl

/-- C8: on every validator-accepted graph the layout computation
terminates: the fuelled embedding is proven never to exhaust its fuel, so
calculateLayout always returns a result.  The embedding in fact proves
this for every input, accepted or not. -/
theorem C8_termination (data : FamilyTreeData) (options : LayoutOptions)
    (h : validateFamilyTreeData data = .ok ()) :
    (calculateLayout data options).isSome :=
  calculateLayout_isSome data options

theorem C8_witness :
    validateFamilyTreeData exSimple = .ok () ∧
      (calculateLayout exSimple exOptions).isSome :=
  ⟨rfl, C8_termination exSimple exOptions rfl⟩

/-- C9: the width estimator is advisory: every successful call returns the
processed-partnership list exactly as it was handed in and only ever grows
its own visited set; the session positions, connections and processed
people are not even passed to it. -/
theorem C9_width_frame (fuel : Nat) (pid : String) (data : FamilyTreeData)
    (spacing : Spacing) (pp : List String) (vis : List (Option String))
    (r : ℚ × List String × List (Option String))
    (h : calcSubtreeWidthF fuel pid data spacing pp vis = some r) :
    r.2.1 = pp ∧ vis ⊆ r.2.2 :=
  calcSubtreeWidthF_frame fuel pid data spacing pp vis r h

theorem C9_witness :
    ∃ r, calcSubtreeWidthF (widthFuel exSimple) "p1" exSimple exSp []
        [some "z"] = some r ∧
      r.2.1 = ([] : List String) ∧ [some "z"] ⊆ r.2.2 := by
  have h : calcSubtreeWidthF (widthFuel exSimple) "p1" exSimple exSp [] [some "z"] =
      some swSimpleRes := by
    with_unfolding_all rfl
  exact ⟨swSimpleRes, h,
    C9_width_frame (widthFuel exSimple) "p1" exSimple exSp [] [some "z"] swSimpleRes h⟩

/-- C10: a person of the input for whom the placement pass records no
position still appears in the returned node list, with coordinates (0, 0)
in the canonical top-down frame. -/
theorem C10_default_origin (data : FamilyTreeData) (options : LayoutOptions)
    (hor : options.orientation.getD .topDown = .topDown) (st : LayoutState)
    (hl : layoutPass data (mergeSpacing options.spacing) = some st)
    (p : PersonNode) (hp : p ∈ data.people)
    (hmiss : alGet (some p.id) st.nodePositions = none) :
    ∃ res, calculateLayout data options = some res ∧
      (⟨p.id, 0, 0⟩ : LayoutNode) ∈ res.nodes := by
  unfold calculateLayout
  dsimp only
  rw [hl]
  refine ⟨_, rfl, ?_⟩
  rw [hor]
  unfold transformLayout
  rw [if_pos rfl]
  dsimp only
  unfold nodesOf
  rw [List.mem_map]
  refine ⟨p, hp, ?_⟩
  rw [hmiss]

theorem C10_witness :
    validateFamilyTreeData exSkip = .ok () ∧
    ∃ res, calculateLayout exSkip exOptions = some res ∧
      (⟨"Y", 0, 0⟩ : LayoutNode) ∈ res.nodes := by
  have h : layoutPass exSkip (mergeSpacing exOptions.spacing) = some exSkipSt := by
    with_unfolding_all rfl
  exact ⟨rfl, C10_default_origin exSkip exOptions rfl exSkipSt h ⟨"Y"⟩ (by decide) rfl⟩

end FamTree
